import Mathlib

/-!
# Field, Electric_Field and Magnetic_Field (`src/main.cpp`)

A shallow embedding of the three classes of `main.cpp` and of the arithmetic
they perform.

The C++ type `double` is modelled by `Double`, an executable model of
IEEE-754 binary64 with the default rounding (to nearest, ties to even).  Each
C++ operator `+`, `*`, `/` and `std::sqrt` is one correctly rounded operation,
applied in the order in which the C++ grammar parses the source expression
(left to right, no fused multiply-add, no extended intermediate precision).
Decimal literals denote the binary64 value nearest to them.  All NaNs are
identified (payload and sign of a NaN are not observable in this program
except through printing).

An object is modelled by the record of its data members.  A method that
mutates `this` takes the record and returns the updated record, paired with
the value that the call hands back to its caller (`none` for a `void` method).
`Field::operator=` compares addresses, so it is modelled on a memory that
maps addresses to `Field` objects.

The comparisons `<` and `<=` and the unary minus, which the source does not
use, are the IEEE-754 ones; they serve to state properties of the results.
Rounding errors are stated in exact arithmetic, on the magnitudes in units
(`Double.leWithin`) or on the values as rational numbers (`Double.toRat`,
`Double.near`).
-/

namespace FieldModel

/-! ## binary64 -/

/-- An IEEE-754 binary64 datum.  A finite datum is a sign (`true` is negative)
and a magnitude `k`, counted in units of `2^-1074`, the smallest positive
subnormal: its value is `±k * 2^-1074`.  Every finite binary64 value is a
whole number of such units, so the representation is canonical. -/
inductive Double where
  | nan : Double
  | inf (neg : Bool) : Double
  | fin (neg : Bool) (k : Nat) : Double
deriving DecidableEq

namespace Double

/-- Number of units of `2^-1074` in `1.0`. -/
def unitScale : Nat := 2 ^ 1074

/-- The magnitude `2^1024`, in units: the least magnitude that overflows. -/
def overflowBound : Nat := 2 ^ 2098

/-- Number of halvings that bring `f` below `2^53`, within `fuel` steps. -/
def excessFuel : Nat → Nat → Nat
  | 0, _ => 0
  | fuel + 1, f => if f < 2 ^ 53 then 0 else excessFuel fuel (f / 2) + 1

/-- Number of bits that `f` has beyond 53 significant bits: `0` when
`f < 2^53`, and otherwise the `sh` with `2^52 ≤ f / 2^sh < 2^53`. -/
def excess (f : Nat) : Nat :=
  excessFuel f f

/-- Rounding of the non-negative rational `n / d` (`d > 0`) to 53 significant
bits, to nearest with ties to even; the grid never gets finer than one unit,
which gives gradual underflow.  The exponent range is unbounded above. -/
def roundRatio (n d : Nat) : Nat :=
  let sh := excess (n / d)
  let d2 := d * 2 ^ sh
  let q := n / d2
  let r := n % d2
  if 2 * r < d2 then q * 2 ^ sh
  else if 2 * r = d2 then (if q % 2 = 0 then q else q + 1) * 2 ^ sh
  else (q + 1) * 2 ^ sh

/-- A rounded magnitude with its sign: infinity when it reaches `2^1024`. -/
def pack (neg : Bool) (k : Nat) : Double :=
  if k < overflowBound then fin neg k else inf neg

/-- The binary64 datum nearest to `± n / d` units. -/
def roundTo (neg : Bool) (n d : Nat) : Double :=
  pack neg (roundRatio n d)

/-- The binary64 value of the decimal literal `n / d` (such as `6.6 = 66 / 10`). -/
def ofDecimal (n d : Nat) : Double :=
  roundTo false (n * unitScale) d

/-- The binary64 value of a non-negative integer literal. -/
def ofNat (n : Nat) : Double :=
  ofDecimal n 1

/-- Membership of a finite non-negative datum in the real interval
`[lo, hi)` whose end points are the integers `lo` and `hi`. -/
def between (lo hi : Nat) : Double → Bool
  | fin false k => decide (lo * unitScale ≤ k) && decide (k < hi * unitScale)
  | _ => false

/-- Finiteness: neither a NaN nor an infinity. -/
def isFinite : Double → Bool
  | fin _ _ => true
  | _ => false

/-- Binary64 addition, the C++ `+` on `double`. -/
def add : Double → Double → Double
  | nan, _ => nan
  | _, nan => nan
  | inf a, inf b => if a = b then inf a else nan
  | inf a, fin _ _ => inf a
  | fin _ _, inf b => inf b
  | fin a j, fin b k =>
      if a = b then roundTo a (j + k) 1
      else if j = k then fin false 0
      else if k < j then roundTo a (j - k) 1
      else roundTo b (k - j) 1

/-- Binary64 multiplication, the C++ `*` on `double`. -/
def mul : Double → Double → Double
  | nan, _ => nan
  | _, nan => nan
  | inf a, inf b => inf (xor a b)
  | inf a, fin b k => if k = 0 then nan else inf (xor a b)
  | fin a j, inf b => if j = 0 then nan else inf (xor a b)
  | fin a j, fin b k => roundTo (xor a b) (j * k) unitScale

/-- Binary64 division, the C++ `/` on `double`. -/
def div : Double → Double → Double
  | nan, _ => nan
  | _, nan => nan
  | inf _, inf _ => nan
  | inf a, fin b _ => inf (xor a b)
  | fin a _, inf b => fin (xor a b) 0
  | fin a j, fin b k =>
      if k = 0 then (if j = 0 then nan else inf (xor a b))
      else roundTo (xor a b) (j * unitScale) k

/-- Integer square root by descent on the base-4 digits of `n`, of which
there are at most `fuel`. -/
def isqrtFuel : Nat → Nat → Nat
  | 0, _ => 0
  | fuel + 1, n =>
      if n = 0 then 0
      else
        let s := 2 * isqrtFuel fuel (n / 4)
        if (s + 1) * (s + 1) ≤ n then s + 1 else s

/-- Floor of the square root of `n`. -/
def isqrt (n : Nat) : Nat :=
  isqrtFuel n n

/-- Rounding of the square root of `n` units squared to 53 significant bits,
to nearest with ties to even. -/
def roundSqrt (n : Nat) : Nat :=
  let sh := excess (isqrt n)
  let q := isqrt (n / 4 ^ sh)
  let mid := (2 * q + 1) * (2 * q + 1) * 4 ^ sh
  if 4 * n < mid then q * 2 ^ sh
  else if 4 * n = mid then (if q % 2 = 0 then q else q + 1) * 2 ^ sh
  else (q + 1) * 2 ^ sh

/-- Binary64 square root, `std::sqrt` on `double`. -/
def sqrt : Double → Double
  | nan => nan
  | inf false => inf false
  | inf true => nan
  | fin s k =>
      if k = 0 then fin s 0
      else if s then nan
      else fin false (roundSqrt (k * unitScale))

/-- The exact sum of the finite data `±j` and `±k` units, as a sign and a
magnitude; an exact zero sum is negative only when both operands are. -/
def exactSum (a : Bool) (j : Nat) (b : Bool) (k : Nat) : Bool × Nat :=
  if a = b then (a, j + k)
  else if j = k then (false, 0)
  else if k < j then (a, j - k)
  else (b, k - j)

/-- The addition of `x` and `y` commits no rounding error: for finite
operands the computed sum is their exact sum (in particular it does not
overflow); an operand that is a NaN or an infinity is not rounded at all. -/
def addExact : Double → Double → Bool
  | fin a j, fin b k =>
      decide (add (fin a j) (fin b k) = fin (exactSum a j b k).1 (exactSum a j b k).2)
  | _, _ => true

/-- The four additions of `(x + y) + z` and `x + (y + z)` are exact. -/
def assocExact (x y z : Double) : Bool :=
  addExact x y && addExact (add x y) z && addExact y z && addExact x (add y z)

/-- Binary64 negation, the C++ unary `-` on `double`: the sign is flipped. -/
def neg : Double → Double
  | nan => nan
  | inf s => inf (!s)
  | fin s k => fin (!s) k

/-- The C++ comparison `x < y` on `double`; false when an operand is a NaN. -/
def lt : Double → Double → Bool
  | nan, _ => false
  | _, nan => false
  | inf a, inf b => a && !b
  | inf a, fin _ _ => a
  | fin _ _, inf b => !b
  | fin false j, fin false k => decide (j < k)
  | fin false _, fin true _ => false
  | fin true j, fin false k => decide (0 < j ∨ 0 < k)
  | fin true j, fin true k => decide (k < j)

/-- The C++ comparison `x <= y` on `double`; false when an operand is a NaN. -/
def le : Double → Double → Bool
  | nan, _ => false
  | _, nan => false
  | inf a, inf b => a || !b
  | inf a, fin _ _ => a
  | fin _ _, inf b => !b
  | fin false j, fin false k => decide (j ≤ k)
  | fin false j, fin true k => decide (j = 0 ∧ k = 0)
  | fin true _, fin false _ => true
  | fin true j, fin true k => decide (k ≤ j)

/-- The sign bit of a datum; a NaN counts as unsigned. -/
def signbit : Double → Bool
  | nan => false
  | inf s => s
  | fin s _ => s

/-- The signed value, in units, of a finite datum. -/
def sval (s : Bool) (k : Nat) : Int :=
  if s then -(k : Int) else (k : Int)

instance : Add Double := ⟨add⟩
instance : Neg Double := ⟨neg⟩
instance : Mul Double := ⟨mul⟩
instance : Div Double := ⟨div⟩
instance (n : Nat) : OfNat Double n := ⟨ofNat n⟩
instance : OfScientific Double :=
  ⟨fun m s e => if s then ofDecimal m (10 ^ e) else ofDecimal (m * 10 ^ e) 1⟩

/-- A finite datum that is a zero or has a magnitude between `2^-511` and
`2^506`, so that its square neither underflows nor overflows. -/
def inRange : Double → Bool
  | fin _ k => decide (k = 0) || (decide (2 ^ 563 ≤ k) && decide (k ≤ 2 ^ 1580))
  | _ => false

/-- For non-negative finite data of magnitudes `j` and `k` units, the
comparison `x <= y * (1 + 2^-e)` in exact arithmetic; false for other data. -/
def leWithin (e : Nat) : Double → Double → Bool
  | fin false j, fin false k => decide (j * 2 ^ e ≤ k * (2 ^ e + 1))
  | _, _ => false

/-- The magnitude of a finite datum in units of `2^-1074`; `0` for a NaN or
an infinity. -/
def magnitude : Double → Nat
  | fin _ k => k
  | _ => 0

/-- The magnitude of a finite datum as a rational number; `0` for a NaN or an
infinity. -/
def absRat : Double → ℚ
  | fin _ k => (k : ℚ) / (unitScale : ℚ)
  | _ => 0

/-- The sign of a datum as a rational number, `-1` or `1`. -/
def signRat (x : Double) : ℚ :=
  if signbit x then -1 else 1

/-- The value of a finite datum as a rational number; `0` for a NaN or an
infinity. -/
def toRat (x : Double) : ℚ :=
  signRat x * absRat x

/-- Normal numbers: the finite data of magnitude at least `2^-1022`. -/
def isNormal : Double → Bool
  | fin _ k => decide (2 ^ 52 ≤ k)
  | _ => false

/-- The datum is a binary64 value: a NaN, an infinity, or a finite datum
whose magnitude is below `2^1024` and is left unchanged by rounding to 53
significant bits. -/
def isBinary64 : Double → Bool
  | fin _ k => decide (k < overflowBound) && decide (roundRatio k 1 = k)
  | _ => true

/-- The product `x * y` of finite data neither underflows nor overflows: the
exact product has magnitude at least `2^-1022` (it is `j * k / unitScale`
units, against `2^52` units) and the rounded product is finite. -/
def mulSafe : Double → Double → Bool
  | fin a j, fin b k =>
      decide (2 ^ 52 * unitScale ≤ j * k) && isFinite (fin a j * fin b k)
  | _, _ => false

/-- The quotient `x / y` of finite data, `y` not a zero, neither underflows
nor overflows: the exact quotient has magnitude at least `2^-1022` (it is
`j * unitScale / k` units, against `2^52` units) and the rounded quotient is
finite. -/
def divSafe : Double → Double → Bool
  | fin a j, fin b k =>
      decide (0 < k) && decide (2 ^ 52 * k ≤ j * unitScale)
        && isFinite (fin a j / fin b k)
  | _, _ => false

/-- The error factor of one rounding, `1 / (1 - 2^-53)`. -/
def errFactor : ℚ := 2 ^ 53 / (2 ^ 53 - 1)

/-- Agreement up to `n` roundings: each of `x`, `y` is at most
`errFactor ^ n` times the other. -/
def Rel (n : Nat) (x y : ℚ) : Prop :=
  x ≤ errFactor ^ n * y ∧ y ≤ errFactor ^ n * x

/-- Agreement of `x` with `y` within the relative error `2^-e`:
`|x - y| <= |y| * 2^-e`. -/
def near (e : Nat) (x y : ℚ) : Prop :=
  |x - y| ≤ |y| / 2 ^ e

end Double

/-! ## Constants -/

/-- The constant `M_PI` of `<cmath>`, the literal `3.14159265358979323846`. -/
def M_PI : Double := 3.14159265358979323846

/-- Permittivity of free space, `const double EPSILON_0 = 8.854187817e-12`. -/
def EPSILON_0 : Double := 8.854187817e-12

/-- Permeability of free space, `const double MU_0 = 4 * M_PI * 1e-7`. -/
def MU_0 : Double := 4 * M_PI * 1e-7

/-! ## class Field -/

/-- The data of a `Field` object: the three entries `value[0]`, `value[1]`,
`value[2]` of its heap array. -/
structure Field where
  value0 : Double
  value1 : Double
  value2 : Double
deriving DecidableEq

/-- Default constructor `Field()`. -/
def Field.default : Field := ⟨0.0, 0.0, 0.0⟩

/-- Parameterized constructor `Field(double x, double y, double z)`. -/
def Field.new (x y z : Double) : Field := ⟨x, y, z⟩

/-- Method `Field::calculateMagnitude`. -/
def Field.calculateMagnitude (self : Field) : Double :=
  Double.sqrt (self.value0 * self.value0 + self.value1 * self.value1
    + self.value2 * self.value2)

/-- The component additions of `(a + b) + c` and of `a + (b + c)` are all
exact. -/
def Field.sumsExact (a b c : Field) : Bool :=
  Double.assocExact a.value0 b.value0 c.value0
    && Double.assocExact a.value1 b.value1 c.value1
    && Double.assocExact a.value2 b.value2 c.value2

/-- Entry `value[i]` of a `Field` object, for `i` in `0, 1, 2`. -/
def Field.get (self : Field) : Nat → Double
  | 0 => self.value0
  | 1 => self.value1
  | _ => self.value2

/-- The object after the store `value[i] = v`, for `i` in `0, 1, 2`. -/
def Field.set (self : Field) (i : Nat) (v : Double) : Field :=
  match i with
  | 0 => { self with value0 := v }
  | 1 => { self with value1 := v }
  | _ => { self with value2 := v }

/-- The `Field` objects in memory, by address. -/
abbrev Store := Nat → Field

/-- One pass of the loop body `value[i] = other.value[i]` of `operator=`,
with `this` and `other` given by address. -/
def Field.assignStep (this other : Nat) (st : Store) (i : Nat) : Store :=
  Function.update st this ((st this).set i ((st other).get i))

/-- Operator `Field& Field::operator=(const Field& other)`: under the guard
`this != &other` the loop runs for `i = 0, 1, 2`; the result is the memory
after the call and the returned reference `*this`. -/
def Field.operator_assign (st : Store) (this other : Nat) : Store × Nat :=
  if this ≠ other then
    ([0, 1, 2].foldl (Field.assignStep this other) st, this)
  else
    (st, this)

/-- The vector sum of two fields, as both `operator+` compute it. -/
def Field.sum (a b : Field) : Field :=
  ⟨a.value0 + b.value0, a.value1 + b.value1, a.value2 + b.value2⟩

/-- Every component is a zero or has a magnitude between `2^-511` and
`2^506`. -/
def Field.inRange (f : Field) : Bool :=
  Double.inRange f.value0 && Double.inRange f.value1 && Double.inRange f.value2

/-! ## class Electric_Field -/

/-- The data of an `Electric_Field` object: the base-class part and the
private member `E_calculated`. -/
structure Electric_Field extends Field where
  E_calculated : Double
deriving DecidableEq

/-- Default constructor `Electric_Field() : Field(), E_calculated(0.0)`. -/
def Electric_Field.default : Electric_Field := ⟨Field.default, 0.0⟩

/-- Parameterized constructor
`Electric_Field(x, y, z) : Field(x, y, z), E_calculated(0.0)`. -/
def Electric_Field.new (x y z : Double) : Electric_Field := ⟨Field.new x y z, 0.0⟩

/-- Method `void Electric_Field::calculateElectricField(double Q, double r)`.
The first component is the object after the call; the second is the value the
call hands back to its caller, `none` because the method is declared `void`. -/
def Electric_Field.calculateElectricField (self : Electric_Field) (Q r : Double) :
    Electric_Field × Option Double :=
  ({ self with E_calculated := Q / (4 * M_PI * EPSILON_0 * r * r) }, none)

/-- Operator `Electric_Field::operator+`. -/
def Electric_Field.operator_plus (self other : Electric_Field) : Electric_Field :=
  Electric_Field.new (self.value0 + other.value0) (self.value1 + other.value1)
    (self.value2 + other.value2)

/-! ## class Magnetic_Field -/

/-- The data of a `Magnetic_Field` object: the base-class part and the
private member `B_calculated`. -/
structure Magnetic_Field extends Field where
  B_calculated : Double
deriving DecidableEq

/-- Default constructor `Magnetic_Field() : Field(), B_calculated(0.0)`. -/
def Magnetic_Field.default : Magnetic_Field := ⟨Field.default, 0.0⟩

/-- Parameterized constructor
`Magnetic_Field(x, y, z) : Field(x, y, z), B_calculated(0.0)`. -/
def Magnetic_Field.new (x y z : Double) : Magnetic_Field := ⟨Field.new x y z, 0.0⟩

/-- Method `void Magnetic_Field::calculateMagneticField(double I, double r)`.
The first component is the object after the call; the second is the value the
call hands back to its caller, `none` because the method is declared `void`. -/
def Magnetic_Field.calculateMagneticField (self : Magnetic_Field) (I r : Double) :
    Magnetic_Field × Option Double :=
  ({ self with B_calculated := (MU_0 * I) / (2 * M_PI * r) }, none)

/-- Operator `Magnetic_Field::operator+`. -/
def Magnetic_Field.operator_plus (self other : Magnetic_Field) : Magnetic_Field :=
  Magnetic_Field.new (self.value0 + other.value0) (self.value1 + other.value1)
    (self.value2 + other.value2)

/-- No operation of `calculateElectricField(Q, r)` past the constant
`4 * M_PI * EPSILON_0` underflows or overflows: the two multiplications by
`r` and the division of `Q` by the denominator. -/
def Electric_Field.safeRun (Q r : Double) : Bool :=
  Double.mulSafe (4 * M_PI * EPSILON_0) r
    && Double.mulSafe (4 * M_PI * EPSILON_0 * r) r
    && Double.divSafe Q (4 * M_PI * EPSILON_0 * r * r)

/-- Neither the denominator `2 * M_PI * r` nor the quotient of
`calculateMagneticField(I, r)` underflows or overflows. -/
def Magnetic_Field.safeRun (I r : Double) : Bool :=
  Double.mulSafe (2 * M_PI) r
    && Double.divSafe (MU_0 * I) (2 * M_PI * r)

/-! ## The objects of `main` -/

/-- Object `Electric_Field E1(1e5, 2.0, 3.0)`. -/
def E1 : Electric_Field := Electric_Field.new 1e5 2.0 3.0

/-- Object `Electric_Field E2(4e5, 5.5, 6.6)`. -/
def E2 : Electric_Field := Electric_Field.new 4e5 5.5 6.6

/-- Object `Magnetic_Field M1(3.0, 4.0, 5.0)`. -/
def M1 : Magnetic_Field := Magnetic_Field.new 3.0 4.0 5.0

/-- Object `Magnetic_Field M2(7.0, 8.0, 9.0)`. -/
def M2 : Magnetic_Field := Magnetic_Field.new 7.0 8.0 9.0

/-! ## Properties -/

namespace Double

theorem add_def (x y : Double) : x + y = add x y := rfl

theorem mul_def (x y : Double) : x * y = mul x y := rfl

theorem div_def (x y : Double) : x / y = div x y := rfl

theorem add_nan (x : Double) : add x nan = nan := by
  cases x <;> rfl

theorem nan_add (x : Double) : add nan x = nan := by
  cases x <;> rfl

/-- Binary64 addition is commutative. -/
theorem add_commutes (x y : Double) : x + y = y + x := by
  simp only [add_def]
  cases x <;> cases y <;> simp only [add]
  case inf.inf a b =>
    cases a <;> cases b <;> simp
  case fin.fin a j b k =>
    by_cases hab : a = b
    · subst hab
      simp [Nat.add_comm]
    · have hba : ¬ b = a := fun h => hab h.symm
      simp only [hab, hba, if_false]
      by_cases hjk : j = k
      · subst hjk; simp
      · have hkj : ¬ k = j := fun h => hjk h.symm
        simp only [hjk, hkj, if_false]
        by_cases h : k < j
        · have : ¬ j < k := by omega
          simp [h, this]
        · have : j < k := by omega
          simp [h, this]

theorem exactSum_same (a : Bool) (j k : Nat) : exactSum a j a k = (a, j + k) := by
  simp [exactSum]

theorem exactSum_opp (a b : Bool) (j k : Nat) (h : a ≠ b) :
    exactSum a j b k
      = if j = k then (false, 0) else if k < j then (a, j - k) else (b, k - j) := by
  simp [exactSum, h]

set_option maxHeartbeats 4000000 in
theorem exactSum_assoc_aux (a b c : Bool) (j k l : Nat)
    (hjk : (j < k ∧ j ≠ k ∧ ¬ k < j) ∨ (j = k) ∨ (k < j ∧ j ≠ k))
    (hkl : (k < l ∧ k ≠ l ∧ ¬ l < k) ∨ (k = l) ∨ (l < k ∧ k ≠ l)) :
    exactSum (exactSum a j b k).1 (exactSum a j b k).2 c l
      = exactSum a j (exactSum b k c l).1 (exactSum b k c l).2 := by
  rcases hjk with ⟨a1, a2, a3⟩ | a1 | ⟨a1, a2⟩ <;>
  rcases hkl with ⟨b1, b2, b3⟩ | b1 | ⟨b1, b2⟩ <;>
  (try subst a1) <;> (try subst b1) <;>
  cases a <;> cases b <;> cases c <;>
  simp [exactSum_same, exactSum_opp, *] <;>
  (try split_ifs) <;> (try simp) <;> (try omega)

/-- Exact signed sums, with the IEEE-754 sign of zero, are associative. -/
theorem exactSum_assoc (a b c : Bool) (j k l : Nat) :
    exactSum (exactSum a j b k).1 (exactSum a j b k).2 c l
      = exactSum a j (exactSum b k c l).1 (exactSum b k c l).2 :=
  exactSum_assoc_aux a b c j k l (by omega) (by omega)

theorem add_fin_of_exact {a b : Bool} {j k : Nat}
    (h : addExact (fin a j) (fin b k) = true) :
    add (fin a j) (fin b k) = fin (exactSum a j b k).1 (exactSum a j b k).2 := by
  simpa [addExact] using h

/-- Binary64 addition is associative on operands whose sums are exact. -/
theorem add_assoc_of_exact (x y z : Double) (h : assocExact x y z = true) :
    x + y + z = x + (y + z) := by
  simp only [assocExact, Bool.and_eq_true] at h
  obtain ⟨⟨⟨hxy, hxyz⟩, hyz⟩, hxyz2⟩ := h
  simp only [add_def] at *
  cases x <;> cases y <;> cases z <;> try (simp only [add_nan, nan_add])
  case inf.inf.inf a b c =>
    cases a <;> cases b <;> cases c <;> simp [add]
  case inf.inf.fin a b c l =>
    cases a <;> cases b <;> simp [add]
  case inf.fin.inf a b k c =>
    simp [add]
  case inf.fin.fin a b k c l =>
    rw [add_fin_of_exact hyz]; simp [add]
  case fin.inf.inf a j b c =>
    cases b <;> cases c <;> simp [add]
  case fin.inf.fin a j b c l =>
    simp [add]
  case fin.fin.inf a j b k c =>
    rw [add_fin_of_exact hxy]; simp [add]
  case fin.fin.fin a j b k c l =>
    rw [add_fin_of_exact hxy] at hxyz ⊢
    rw [add_fin_of_exact hyz] at hxyz2 ⊢
    rw [add_fin_of_exact hxyz, add_fin_of_exact hxyz2, exactSum_assoc]

/-- Rounding an exact zero gives the zero of the requested sign. -/
theorem roundTo_zero (s : Bool) (d : Nat) (hd : 0 < d) : roundTo s 0 d = fin s 0 := by
  have h : roundRatio 0 d = 0 := by
    simp [roundRatio, excess, excessFuel, hd]
  have ho : 0 < overflowBound := by
    unfold overflowBound
    positivity
  simp only [roundTo, pack, h, ho, if_true]

/-- A finite datum times a zero is the zero whose sign is the product of the
signs. -/
theorem mul_fin_zero (a s : Bool) (j : Nat) :
    fin a j * fin s 0 = fin (xor a s) 0 := by
  simp only [mul_def, mul, Nat.mul_zero]
  refine roundTo_zero _ _ ?_
  unfold unitScale
  positivity

theorem mul_nan (x : Double) : x * nan = nan := by
  cases x <;> rfl

theorem nan_mul (x : Double) : nan * x = nan := by
  cases x <;> rfl

theorem div_nan (x : Double) : x / nan = nan := by
  cases x <;> rfl

theorem nan_div (x : Double) : nan / x = nan := by
  cases x <;> rfl

/-- The quotient of any datum by a zero is a NaN or an infinity. -/
theorem div_zero_not_finite (x : Double) (s : Bool) : isFinite (x / fin s 0) = false := by
  cases x <;> simp only [div_def, div, isFinite]
  case fin a j =>
    by_cases hj : j = 0 <;> simp [hj, isFinite]

end Double

/-- The double `M_PI` is `0x1.921fb54442d18p+1`. -/
theorem M_PI_value : M_PI = Double.fin false (0x1921fb54442d18 * 2 ^ 1023) := by
  decide!

/-- The constant factor of the electric denominator, `4 * M_PI * EPSILON_0`. -/
theorem four_pi_epsilon :
    4 * M_PI * EPSILON_0 = Double.fin false (0xf4aca1353c7f1 * 2 ^ 989) := by
  decide!

/-- The constant factor of the magnetic denominator, `2 * M_PI`. -/
theorem two_pi : 2 * M_PI = Double.fin false (0x3243f6a8885a3 * 2 ^ 1027) := by
  decide!

/-- The scalar that `calculateElectricField` stores. -/
theorem Electric_Field.calculateElectricField_E (e : Electric_Field) (Q r : Double) :
    (e.calculateElectricField Q r).1.E_calculated
      = Q / (4 * M_PI * EPSILON_0 * r * r) := rfl

/-- The scalar that `calculateMagneticField` stores. -/
theorem Magnetic_Field.calculateMagneticField_B (m : Magnetic_Field) (I r : Double) :
    (m.calculateMagneticField I r).1.B_calculated = (MU_0 * I) / (2 * M_PI * r) := rfl

/-- The literal `0.0` is the positive zero. -/
theorem Double.literal_zero : (0.0 : Double) = Double.fin false 0 := by decide!

/-- C1: for every field constructed with components `(x, y, z)`,
`calculateMagnitude` returns `sqrt(x*x + y*y + z*z)`, each operation being the
binary64 one in the order of the source; for `(0, 0, 0)` it returns `0` and for
`(3, 4, 0)` it returns exactly `5`. -/
theorem calculateMagnitude_eq :
    (∀ x y z : Double,
      (Field.new x y z).calculateMagnitude = Double.sqrt (x * x + y * y + z * z))
    ∧ (Field.new 0.0 0.0 0.0).calculateMagnitude = Double.fin false 0
    ∧ (Field.new 3.0 4.0 0.0).calculateMagnitude
        = Double.fin false (5 * Double.unitScale)
    ∧ (5.0 : Double) = Double.fin false (5 * Double.unitScale) := by
  refine ⟨fun x y z => rfl, ?_, ?_, ?_⟩ <;> decide!

/-- C2: for every pair of electric samples, and for every pair of magnetic
samples, the components of `a + b` are the binary64 sums of the corresponding
components; for `E1 = (1e5, 2.0, 3.0)` and `E2 = (4e5, 5.5, 6.6)` the
components of the sum are `(5e5, 7.5, 9.6)`. -/
theorem operator_plus_components :
    (∀ a b : Electric_Field,
      (a.operator_plus b).value0 = a.value0 + b.value0
      ∧ (a.operator_plus b).value1 = a.value1 + b.value1
      ∧ (a.operator_plus b).value2 = a.value2 + b.value2)
    ∧ (∀ a b : Magnetic_Field,
      (a.operator_plus b).value0 = a.value0 + b.value0
      ∧ (a.operator_plus b).value1 = a.value1 + b.value1
      ∧ (a.operator_plus b).value2 = a.value2 + b.value2)
    ∧ (E1.operator_plus E2).value0 = 5e5
    ∧ (E1.operator_plus E2).value1 = 7.5
    ∧ (E1.operator_plus E2).value2 = 9.6 := by
  refine ⟨fun a b => ⟨rfl, rfl, rfl⟩, fun a b => ⟨rfl, rfl, rfl⟩, ?_, ?_, ?_⟩ <;> decide!

/-- C3, as stated, fails: with first components `0.1`, `0.2` and `0.3` the
sums `(a + b) + c` and `a + (b + c)` have different first components,
`0.6000000000000001` and `0.6`. -/
theorem operator_plus_not_associative :
    (((Electric_Field.new 0.1 0.0 0.0).operator_plus
        (Electric_Field.new 0.2 0.0 0.0)).operator_plus
        (Electric_Field.new 0.3 0.0 0.0)).value0
      ≠ ((Electric_Field.new 0.1 0.0 0.0).operator_plus
        ((Electric_Field.new 0.2 0.0 0.0).operator_plus
          (Electric_Field.new 0.3 0.0 0.0))).value0 := by
  decide!

/-- C3, amended: addition of samples is commutative, for electric and for
magnetic samples; and `(a + b) + c = a + (b + c)` whenever the component
additions on both sides are exact, that is, commit no rounding error. -/
theorem operator_plus_comm_assoc_exact :
    (∀ a b : Electric_Field, a.operator_plus b = b.operator_plus a)
    ∧ (∀ a b : Magnetic_Field, a.operator_plus b = b.operator_plus a)
    ∧ (∀ a b c : Electric_Field,
        Field.sumsExact a.toField b.toField c.toField = true →
        (a.operator_plus b).operator_plus c = a.operator_plus (b.operator_plus c))
    ∧ (∀ a b c : Magnetic_Field,
        Field.sumsExact a.toField b.toField c.toField = true →
        (a.operator_plus b).operator_plus c = a.operator_plus (b.operator_plus c)) := by
  refine ⟨fun a b => ?_, fun a b => ?_, fun a b c h => ?_, fun a b c h => ?_⟩
  · simp only [Electric_Field.operator_plus, Double.add_commutes a.value0,
      Double.add_commutes a.value1, Double.add_commutes a.value2]
  · simp only [Magnetic_Field.operator_plus, Double.add_commutes a.value0,
      Double.add_commutes a.value1, Double.add_commutes a.value2]
  · simp only [Field.sumsExact, Bool.and_eq_true] at h
    obtain ⟨⟨h0, h1⟩, h2⟩ := h
    simp only [Electric_Field.operator_plus, Electric_Field.new, Field.new,
      Double.add_assoc_of_exact _ _ _ h0, Double.add_assoc_of_exact _ _ _ h1,
      Double.add_assoc_of_exact _ _ _ h2]
  · simp only [Field.sumsExact, Bool.and_eq_true] at h
    obtain ⟨⟨h0, h1⟩, h2⟩ := h
    simp only [Magnetic_Field.operator_plus, Magnetic_Field.new, Field.new,
      Double.add_assoc_of_exact _ _ _ h0, Double.add_assoc_of_exact _ _ _ h1,
      Double.add_assoc_of_exact _ _ _ h2]

/-- Witness for C3, amended: the sums of `E1`, `E2` and `E1` of `main` are
exact, and the two groupings agree. -/
theorem operator_plus_comm_assoc_exact_witness :
    Field.sumsExact E1.toField E2.toField E1.toField = true
    ∧ (E1.operator_plus E2).operator_plus E1 = E1.operator_plus (E2.operator_plus E1) :=
  ⟨by decide!, operator_plus_comm_assoc_exact.2.2.1 E1 E2 E1 (by decide!)⟩

/-- C4: whatever the prior state of an electric sample (its components and
the scalar stored by an earlier call), after `calculateElectricField(Q, r)` the
stored field strength is `Q / (4 * M_PI * EPSILON_0 * r * r)`, with
`EPSILON_0` the double nearest to `8.854187817e-12`; it depends only on the
arguments of the latest call.  This holds for every `r`, zero or not. -/
theorem calculateElectricField_stored (e : Electric_Field) (Q r : Double) :
    (e.calculateElectricField Q r).1.E_calculated
        = Q / (4 * M_PI * EPSILON_0 * r * r)
    ∧ (∀ Q0 r0 : Double,
        ((e.calculateElectricField Q0 r0).1.calculateElectricField Q r).1.E_calculated
          = Q / (4 * M_PI * EPSILON_0 * r * r))
    ∧ (∀ e2 : Electric_Field,
        (e2.calculateElectricField Q r).1.E_calculated
          = (e.calculateElectricField Q r).1.E_calculated)
    ∧ EPSILON_0 = Double.ofDecimal 8854187817 (10 ^ 21)
    ∧ EPSILON_0 = Double.fin false (2740238403504279 * 2 ^ (1074 - 88)) := by
  refine ⟨rfl, fun _ _ => rfl, fun _ => rfl, ?_, ?_⟩ <;> decide!

/-- C5, as stated, fails: for `I = 10.0` and `r = 0.02` the stored value is
not the double `1.0e-4`. -/
theorem calculateMagneticField_main_ne :
    (M1.calculateMagneticField 10.0 0.02).1.B_calculated ≠ 1.0e-4 := by
  decide!

/-- C5, amended: whatever the prior state of a magnetic sample, after
`calculateMagneticField(I, r)` the stored field strength is
`(MU_0 * I) / (2 * M_PI * r)` with `MU_0 = 4 * M_PI * 1e-7`; for `I = 10.0`
and `r = 0.02` the stored value is `0x1.a36e2eb1c432cp-14`
(`9.999999999999999e-05`), the double next below `1.0e-4`, which is
`0x1.a36e2eb1c432dp-14`. -/
theorem calculateMagneticField_stored (m : Magnetic_Field) (I r : Double) :
    (m.calculateMagneticField I r).1.B_calculated = (MU_0 * I) / (2 * M_PI * r)
    ∧ (∀ I0 r0 : Double,
        ((m.calculateMagneticField I0 r0).1.calculateMagneticField I r).1.B_calculated
          = (MU_0 * I) / (2 * M_PI * r))
    ∧ MU_0 = 4 * M_PI * 1e-7
    ∧ (m.calculateMagneticField 10.0 0.02).1.B_calculated
        = Double.fin false (0x1a36e2eb1c432c * 2 ^ 1008)
    ∧ (1.0e-4 : Double) = Double.fin false ((0x1a36e2eb1c432c + 1) * 2 ^ 1008) := by
  refine ⟨rfl, fun _ _ => rfl, rfl, ?_, ?_⟩
  · show (MU_0 * 10.0) / (2 * M_PI * 0.02) = _
    decide!
  · decide!

/-- C6, as stated, fails: for `Q = 1e-6` and `r = 0.05` the stored value
does not lie in `[3593500, 3595000)`, the interval of the values that round or
truncate to `3.594e6` at four significant figures. -/
theorem calculateElectricField_main_not_3594 :
    Double.between 3593500 3595000
      (E1.calculateElectricField 1e-6 0.05).1.E_calculated = false := by
  decide!

/-- C6, amended: for `Q = 1e-6` and `r = 0.05` the stored value is
`1e-6 / (4 * M_PI * 8.854187817e-12 * 0.05 * 0.05)`, the double
`0x1.b6d865b8ba56dp+21`; it lies between `3595020` and `3595021`, hence in
`[3595000, 3595500)`, which is `3.595e6` at four significant figures.  With
the literal `0.0025` in place of `0.05 * 0.05` the quotient is the next double
above. -/
theorem calculateElectricField_main_value :
    (E1.calculateElectricField 1e-6 0.05).1.E_calculated
        = 1e-6 / (4 * M_PI * 8.854187817e-12 * 0.05 * 0.05)
    ∧ (E1.calculateElectricField 1e-6 0.05).1.E_calculated
        = Double.fin false (0x1b6d865b8ba56d * 2 ^ 1043)
    ∧ Double.between 3595020 3595021
        (E1.calculateElectricField 1e-6 0.05).1.E_calculated = true
    ∧ Double.between 3595000 3595500
        (E1.calculateElectricField 1e-6 0.05).1.E_calculated = true
    ∧ (1e-6 / (4 * M_PI * 8.854187817e-12 * 0.0025) : Double)
        = Double.fin false ((0x1b6d865b8ba56d + 1) * 2 ^ 1043) := by
  refine ⟨rfl, ?_, ?_, ?_, ?_⟩ <;> decide!

/-- C7: for every pair of samples of the same kind, whatever field strengths
are stored in the operands, the derived scalar of `a + b` is the default
`0.0`: the operands' scalars are neither carried over, nor summed, nor
recomputed. -/
theorem operator_plus_scalar_default :
    (∀ a b : Electric_Field, (a.operator_plus b).E_calculated = Double.fin false 0)
    ∧ (∀ a b : Magnetic_Field, (a.operator_plus b).B_calculated = Double.fin false 0)
    ∧ (∀ (a b : Electric_Field) (Q r Q2 r2 : Double),
        ((a.calculateElectricField Q r).1.operator_plus
          (b.calculateElectricField Q2 r2).1).E_calculated = Double.fin false 0)
    ∧ (∀ (a b : Magnetic_Field) (I r I2 r2 : Double),
        ((a.calculateMagneticField I r).1.operator_plus
          (b.calculateMagneticField I2 r2).1).B_calculated = Double.fin false 0) :=
  ⟨fun _ _ => Double.literal_zero, fun _ _ => Double.literal_zero,
    fun _ _ _ _ _ _ => Double.literal_zero, fun _ _ _ _ _ _ => Double.literal_zero⟩

/-- C8, as stated, fails: for the call `E1.calculateElectricField(1e-6, 0.05)`
of `main`, the value handed back to the caller is not the stored field
strength (the method is `void` and hands back nothing). -/
theorem calculateElectricField_returns_stored_fails :
    (E1.calculateElectricField 1e-6 0.05).2
      ≠ some (E1.calculateElectricField 1e-6 0.05).1.E_calculated := by
  intro h
  cases h

/-- C8, amended: for every electric sample, charge and distance, the compute
operation stores `Q / (4 * M_PI * EPSILON_0 * r * r)` in the field-strength
member of the object, leaves the three components as they were, and hands no
value back to the caller. -/
theorem calculateElectricField_stores_returns_nothing
    (e : Electric_Field) (Q r : Double) :
    (e.calculateElectricField Q r).1.E_calculated
        = Q / (4 * M_PI * EPSILON_0 * r * r)
    ∧ (e.calculateElectricField Q r).1.toField = e.toField
    ∧ (e.calculateElectricField Q r).2 = none :=
  ⟨rfl, rfl, rfl⟩

/-- C9: a default-constructed sample, electric or magnetic, has components
`(0, 0, 0)` and magnitude `0`; a sample constructed from `(x, y, z)` has
exactly those components; in both cases the derived scalar starts at `0.0`. -/
theorem constructors_initial_state :
    (Electric_Field.default.toField = ⟨Double.fin false 0, Double.fin false 0, Double.fin false 0⟩
      ∧ Electric_Field.default.calculateMagnitude = Double.fin false 0
      ∧ Electric_Field.default.E_calculated = Double.fin false 0)
    ∧ (Magnetic_Field.default.toField = ⟨Double.fin false 0, Double.fin false 0, Double.fin false 0⟩
      ∧ Magnetic_Field.default.calculateMagnitude = Double.fin false 0
      ∧ Magnetic_Field.default.B_calculated = Double.fin false 0)
    ∧ (∀ x y z : Double,
        (Electric_Field.new x y z).toField = ⟨x, y, z⟩
        ∧ (Electric_Field.new x y z).E_calculated = Double.fin false 0)
    ∧ (∀ x y z : Double,
        (Magnetic_Field.new x y z).toField = ⟨x, y, z⟩
        ∧ (Magnetic_Field.new x y z).B_calculated = Double.fin false 0) := by
  refine ⟨⟨?_, ?_, ?_⟩, ⟨?_, ?_, ?_⟩, fun x y z => ⟨rfl, Double.literal_zero⟩,
    fun x y z => ⟨rfl, Double.literal_zero⟩⟩ <;> decide!

/-- C10, as stated, fails: for the charge `-1.0` and the distance `0.0` the
stored result is `-Infinity`, which is neither `+Infinity` nor a NaN; and for
the charge `1.0` and the non-finite distance `+Infinity` it is the finite
value `0.0`. -/
theorem calculateElectricField_zero_distance_negative :
    (E1.calculateElectricField (Double.fin true Double.unitScale) 0.0).1.E_calculated
        = Double.inf true
    ∧ ¬ ((E1.calculateElectricField (Double.fin true Double.unitScale) 0.0).1.E_calculated
          = Double.inf false
        ∨ (E1.calculateElectricField (Double.fin true Double.unitScale) 0.0).1.E_calculated
          = Double.nan)
    ∧ (E1.calculateElectricField 1.0 (Double.inf false)).1.E_calculated
        = Double.fin false 0 := by
  refine ⟨?_, ?_, ?_⟩ <;> decide!

/-- C10, amended: the compute operations are total and unguarded.  For a
zero distance of either sign, `calculateElectricField` stores `Q / (+0)` and
`calculateMagneticField` stores `(MU_0 * I) / (±0)`, which by the IEEE-754
rules is `+Infinity`, `-Infinity` or a NaN, never a finite value: for the
electric field a NaN when `Q` is a zero or a NaN, and otherwise the infinity
that has the sign of `Q`.  A NaN argument stores a NaN; an infinite distance
with a finite charge stores a zero. -/
theorem compute_zero_distance (e : Electric_Field) (m : Magnetic_Field)
    (Q I : Double) (s : Bool) :
    (e.calculateElectricField Q (Double.fin s 0)).1.E_calculated
        = Q / Double.fin false 0
    ∧ (Q / Double.fin false 0
        = match Q with
          | Double.nan => Double.nan
          | Double.inf a => Double.inf a
          | Double.fin a j => if j = 0 then Double.nan else Double.inf a)
    ∧ Double.isFinite (e.calculateElectricField Q (Double.fin s 0)).1.E_calculated = false
    ∧ (m.calculateMagneticField I (Double.fin s 0)).1.B_calculated
        = (MU_0 * I) / Double.fin s 0
    ∧ Double.isFinite (m.calculateMagneticField I (Double.fin s 0)).1.B_calculated = false
    ∧ (∀ r : Double, (e.calculateElectricField Double.nan r).1.E_calculated = Double.nan)
    ∧ (e.calculateElectricField Q Double.nan).1.E_calculated = Double.nan
    ∧ (m.calculateMagneticField I Double.nan).1.B_calculated = Double.nan
    ∧ (∀ (a t : Bool) (j : Nat),
        (e.calculateElectricField (Double.fin a j) (Double.inf t)).1.E_calculated
          = Double.fin a 0)
    ∧ (∀ r : Double, (m.calculateMagneticField Double.nan r).1.B_calculated = Double.nan) := by
  have hE : (e.calculateElectricField Q (Double.fin s 0)).1.E_calculated
      = Q / Double.fin false 0 := by
    rw [Electric_Field.calculateElectricField_E, four_pi_epsilon, Double.mul_fin_zero,
      Double.mul_fin_zero]
    cases s <;> rfl
  have hM : (m.calculateMagneticField I (Double.fin s 0)).1.B_calculated
      = (MU_0 * I) / Double.fin s 0 := by
    rw [Magnetic_Field.calculateMagneticField_B, two_pi, Double.mul_fin_zero]
    cases s <;> rfl
  refine ⟨hE, ?_, ?_, hM, ?_, fun r => ?_, ?_, ?_, fun a t j => ?_, fun r => ?_⟩
  · cases Q <;> simp [Double.div_def, Double.div]
  · rw [hE]; exact Double.div_zero_not_finite _ _
  · rw [hM]; exact Double.div_zero_not_finite _ _
  · rw [Electric_Field.calculateElectricField_E, Double.nan_div]
  · rw [Electric_Field.calculateElectricField_E, Double.mul_nan, Double.div_nan]
  · rw [Magnetic_Field.calculateMagneticField_B, Double.mul_nan, Double.div_nan]
  · rw [Electric_Field.calculateElectricField_E, four_pi_epsilon]
    have hc : (0xf4aca1353c7f1 * 2 ^ 989 : Nat) ≠ 0 := by decide!
    generalize (0xf4aca1353c7f1 * 2 ^ 989 : Nat) = c at hc ⊢
    cases t <;> simp [Double.div_def, Double.mul_def, Double.div, Double.mul, hc]
  · rw [Magnetic_Field.calculateMagneticField_B, Double.mul_nan, Double.nan_div]

/-! ## Assignment, frame, negation and sign lemmas -/

theorem Field.operator_assign_ne (st : Store) (a b : Nat) (h : a ≠ b) :
    (Field.operator_assign st a b).1 = Function.update st a (st b) := by
  funext c
  simp only [Field.operator_assign, h, ne_eq, not_false_eq_true, if_true, List.foldl,
    Field.assignStep, Function.update, Field.set, Field.get]
  by_cases hc : c = a
  · subst hc
    simp [h, Ne.symm h]
  · simp [hc]

theorem Electric_Field.calculateElectricField_toField (e : Electric_Field) (Q r : Double) :
    (e.calculateElectricField Q r).1.toField = e.toField := by
  simp only [Electric_Field.calculateElectricField]

theorem Magnetic_Field.calculateMagneticField_toField (m : Magnetic_Field) (I r : Double) :
    (m.calculateMagneticField I r).1.toField = m.toField := by
  simp only [Magnetic_Field.calculateMagneticField]

namespace Double

theorem neg_def (x : Double) : -x = neg x := rfl

theorem neg_nan : neg nan = nan := rfl

theorem neg_inf (s : Bool) : neg (inf s) = inf (!s) := rfl

theorem neg_fin (s : Bool) (k : Nat) : neg (fin s k) = fin (!s) k := rfl

theorem neg_neg_eq (x : Double) : -(-x) = x := by
  cases x <;> simp [neg_def, neg_nan, neg_inf, neg_fin]

theorem neg_pack (s : Bool) (k : Nat) : neg (pack s k) = pack (!s) k := by
  unfold pack
  split_ifs <;> rfl

theorem neg_roundTo (s : Bool) (n d : Nat) : neg (roundTo s n d) = roundTo (!s) n d :=
  neg_pack s _

theorem xor_not_right (a b : Bool) : xor a (!b) = !(xor a b) := by
  cases a <;> cases b <;> rfl

theorem xor_not_left (a b : Bool) : xor (!a) b = !(xor a b) := by
  cases a <;> cases b <;> rfl

theorem mul_neg_eq (x y : Double) : x * (-y) = -(x * y) := by
  cases x <;> cases y <;>
    simp only [mul_def, neg_def, neg_nan, neg_inf, neg_fin, mul, xor_not_right, neg_roundTo]
  case inf.fin a b k => by_cases h : k = 0 <;> simp [h, neg_nan, neg_inf]
  case fin.inf a j b => by_cases h : j = 0 <;> simp [h, neg_nan, neg_inf]

theorem neg_mul_eq (x y : Double) : (-x) * y = -(x * y) := by
  cases x <;> cases y <;>
    simp only [mul_def, neg_def, neg_nan, neg_inf, neg_fin, mul, xor_not_left, neg_roundTo]
  case inf.fin a b k => by_cases h : k = 0 <;> simp [h, neg_nan, neg_inf]
  case fin.inf a j b => by_cases h : j = 0 <;> simp [h, neg_nan, neg_inf]

theorem neg_div_eq (x y : Double) : (-x) / y = -(x / y) := by
  cases x <;> cases y <;>
    simp only [div_def, neg_def, neg_nan, neg_inf, neg_fin, div, xor_not_left, neg_roundTo]
  case fin.fin a j b k =>
    by_cases hk : k = 0
    · by_cases hj : j = 0 <;> simp [hk, hj, neg_nan, neg_inf]
    · simp only [hk, if_false, neg_roundTo]

theorem div_neg_eq (x y : Double) : x / (-y) = -(x / y) := by
  cases x <;> cases y <;>
    simp only [div_def, neg_def, neg_nan, neg_inf, neg_fin, div, xor_not_right, neg_roundTo]
  case fin.fin a j b k =>
    by_cases hk : k = 0
    · by_cases hj : j = 0 <;> simp [hk, hj, neg_nan, neg_inf]
    · simp only [hk, if_false, neg_roundTo]

theorem excessFuel_le (fuel f : Nat) (hf : f ≠ 0) : 2 ^ excessFuel fuel f ≤ f := by
  induction fuel generalizing f with
  | zero => simp only [excessFuel, pow_zero]; omega
  | succ n ih =>
    simp only [excessFuel]
    split_ifs with h
    · simp only [pow_zero]; omega
    · have h2 : f / 2 ≠ 0 := by omega
      have := ih (f / 2) h2
      rw [pow_succ]
      omega

theorem excess_le (f : Nat) (hf : f ≠ 0) : 2 ^ excess f ≤ f :=
  excessFuel_le f f hf

theorem roundRatio_one_pos (n : Nat) (hn : n ≠ 0) : roundRatio n 1 ≠ 0 := by
  have h := excess_le n hn
  have hp : 0 < 2 ^ excess n := by positivity
  have hq : 0 < n / 2 ^ excess n := Nat.div_pos h hp
  simp only [roundRatio, Nat.div_one, one_mul]
  split_ifs <;> positivity

theorem isqrtFuel_sq_le (fuel n : Nat) : isqrtFuel fuel n * isqrtFuel fuel n ≤ n := by
  induction fuel generalizing n with
  | zero => simp [isqrtFuel]
  | succ m ih =>
    simp only [isqrtFuel]
    split_ifs with h0 h1
    · simp
    · exact h1
    · have := ih (n / 4)
      have e : 2 * isqrtFuel m (n / 4) * (2 * isqrtFuel m (n / 4))
          = 4 * (isqrtFuel m (n / 4) * isqrtFuel m (n / 4)) := by ring
      rw [e]
      omega

theorem isqrt_sq_le (n : Nat) : isqrt n * isqrt n ≤ n :=
  isqrtFuel_sq_le n n


theorem four_pow_excess_le (n : Nat) (hn : n ≠ 0) : 4 ^ excess (isqrt n) ≤ n := by
  by_cases h0 : isqrt n = 0
  · have e : excess 0 = 0 := rfl
    rw [h0, e, pow_zero]
    omega
  · have h1 := excess_le _ h0
    have h2 := isqrt_sq_le n
    have e : 4 ^ excess (isqrt n) = 2 ^ excess (isqrt n) * 2 ^ excess (isqrt n) := by
      rw [← mul_pow]
      norm_num
    rw [e]
    exact le_trans (Nat.mul_le_mul h1 h1) h2

theorem roundSqrt_pos (n : Nat) (hn : n ≠ 0) : roundSqrt n ≠ 0 := by
  have h4 := four_pow_excess_le n hn
  have hp : 2 ^ excess (isqrt n) ≠ 0 := by positivity
  simp only [roundSqrt]
  generalize isqrt (n / 4 ^ excess (isqrt n)) = q
  generalize 4 ^ excess (isqrt n) = P at h4 ⊢
  generalize 2 ^ excess (isqrt n) = T at hp ⊢
  split_ifs with c1 c2 c3
  · intro h
    have hq : q = 0 := by
      rcases Nat.mul_eq_zero.mp h with h | h
      · exact h
      · exact absurd h hp
    subst hq
    simp only [Nat.mul_zero, Nat.zero_add, Nat.one_mul] at c1
    omega
  · intro h
    have hq : q = 0 := by
      rcases Nat.mul_eq_zero.mp h with h | h
      · exact h
      · exact absurd h hp
    subst hq
    simp only [Nat.mul_zero, Nat.zero_add, Nat.one_mul] at c2
    omega
  · exact Nat.mul_ne_zero (by omega) hp
  · exact Nat.mul_ne_zero (by omega) hp

theorem signbit_pack (s : Bool) (k : Nat) : signbit (pack s k) = s := by
  unfold pack
  split_ifs <;> rfl

theorem signbit_roundTo (s : Bool) (n d : Nat) : signbit (roundTo s n d) = s :=
  signbit_pack s _

theorem signbit_mul_self (x : Double) : signbit (x * x) = false := by
  cases x with
  | nan => rfl
  | inf s => cases s <;> rfl
  | fin s k =>
    simp only [mul_def, mul, Bool.xor_self]
    exact signbit_roundTo _ _ _

theorem add_fin_same (a : Bool) (j k : Nat) : fin a j + fin a k = roundTo a (j + k) 1 := by
  simp only [add_def, add, if_true]

theorem signbit_add (p q : Double) (hp : signbit p = false) (hq : signbit q = false) :
    signbit (p + q) = false := by
  cases p with
  | nan => rw [add_def, nan_add]; rfl
  | inf a =>
    cases q with
    | nan => rfl
    | inf b =>
      have ha : a = false := hp
      have hb : b = false := hq
      subst ha; subst hb; rfl
    | fin b k => exact hp
  | fin a j =>
    cases q with
    | nan => rfl
    | inf b => exact hq
    | fin b k =>
      have ha : a = false := hp
      have hb : b = false := hq
      subst ha; subst hb
      simp only [add_def, add, if_true]
      exact signbit_roundTo _ _ _

theorem signbit_sqrt (p : Double) (hp : signbit p = false) : signbit (sqrt p) = false := by
  cases p with
  | nan => rfl
  | inf a =>
    have ha : a = false := hp
    subst ha; rfl
  | fin a k =>
    have ha : a = false := hp
    subst ha
    simp only [sqrt]
    split_ifs <;> rfl

theorem lt_zero_of_signbit (x : Double) (h : signbit x = false) :
    lt x (fin false 0) = false := by
  cases x with
  | nan => rfl
  | inf a =>
    have ha : a = false := h
    subst ha; rfl
  | fin a k =>
    have ha : a = false := h
    subst ha
    simp [lt]

theorem pack_eq_zero {s : Bool} {k : Nat} (h : pack s k = fin false 0) :
    s = false ∧ k = 0 := by
  unfold pack at h
  split_ifs at h
  simpa using h

theorem add_eq_zero_of_signbit (p q : Double) (hp : signbit p = false)
    (hq : signbit q = false) :
    p + q = fin false 0 ↔ p = fin false 0 ∧ q = fin false 0 := by
  constructor
  · intro h
    cases p with
    | nan => rw [add_def, nan_add] at h; exact Double.noConfusion h
    | inf a =>
      cases q with
      | nan => exact Double.noConfusion h
      | inf b =>
        have ha : a = false := hp
        have hb : b = false := hq
        subst ha; subst hb
        exact Double.noConfusion h
      | fin b k => exact Double.noConfusion h
    | fin a j =>
      cases q with
      | nan => exact Double.noConfusion h
      | inf b => exact Double.noConfusion h
      | fin b k =>
        have ha : a = false := hp
        have hb : b = false := hq
        subst ha; subst hb
        rw [add_fin_same] at h
        unfold roundTo at h
        have h1 := (pack_eq_zero h).2
        have h2 : j + k = 0 := by
          by_contra hne
          exact roundRatio_one_pos _ hne h1
        have hj : j = 0 := by omega
        have hk : k = 0 := by omega
        subst hj; subst hk
        exact ⟨rfl, rfl⟩
  · rintro ⟨rfl, rfl⟩
    simp only [add_def, add, if_true]
    exact roundTo_zero _ _ (by decide)

theorem sqrt_eq_zero_of_signbit (p : Double) (hp : signbit p = false) :
    sqrt p = fin false 0 ↔ p = fin false 0 := by
  constructor
  · intro h
    cases p with
    | nan => exact Double.noConfusion h
    | inf a =>
      have ha : a = false := hp
      subst ha
      exact Double.noConfusion h
    | fin a k =>
      have ha : a = false := hp
      subst ha
      by_cases hk : k = 0
      · subst hk; rfl
      · simp only [sqrt, hk, if_false, Bool.false_eq_true] at h
        have hU : k * unitScale ≠ 0 := by
          refine Nat.mul_ne_zero hk ?_
          unfold unitScale
          positivity
        have hpos := roundSqrt_pos _ hU
        simp only [fin.injEq, true_and] at h
        exact absurd h hpos
  · rintro rfl
    simp [sqrt]


theorem exactSum_sq (a b : Bool) (j k : Nat) :
    ((exactSum a j b k).2 : Int) ^ 2 = (sval a j + sval b k) ^ 2 := by
  by_cases hab : a = b
  · subst hab
    rw [exactSum_same]
    cases a <;> simp only [sval, if_true, if_false, Bool.false_eq_true] <;> push_cast <;> ring
  · rw [exactSum_opp a b j k hab]
    have hjk : j = k ∨ k < j ∨ j < k := by omega
    rcases hjk with h | h | h
    · subst h
      cases a <;> cases b <;> simp [sval] at hab ⊢
    · have h1 : j ≠ k := by omega
      simp only [h1, h, if_true, if_false]
      cases a <;> cases b <;> simp [sval] at hab ⊢ <;> push_cast [Nat.cast_sub h.le] <;> ring
    · have h1 : j ≠ k := by omega
      have h2 : ¬ k < j := by omega
      simp only [h1, h2, if_false]
      cases a <;> cases b <;> simp [sval] at hab ⊢ <;> push_cast [Nat.cast_sub h.le] <;> ring

theorem sval_sq (s : Bool) (k : Nat) : (sval s k) ^ 2 = (k : Int) ^ 2 := by
  cases s <;> simp [sval]

end Double

theorem Field.calculateMagnitude_signbit (f : Field) :
    Double.signbit f.calculateMagnitude = false :=
  Double.signbit_sqrt _ (Double.signbit_add _ _
    (Double.signbit_add _ _ (Double.signbit_mul_self _) (Double.signbit_mul_self _))
    (Double.signbit_mul_self _))

theorem Field.calculateMagnitude_eq_zero_iff (f : Field) :
    f.calculateMagnitude = Double.fin false 0
      ↔ f.value0 * f.value0 = Double.fin false 0
        ∧ f.value1 * f.value1 = Double.fin false 0
        ∧ f.value2 * f.value2 = Double.fin false 0 := by
  unfold Field.calculateMagnitude
  rw [Double.sqrt_eq_zero_of_signbit _ (Double.signbit_add _ _
      (Double.signbit_add _ _ (Double.signbit_mul_self _) (Double.signbit_mul_self _))
      (Double.signbit_mul_self _)),
    Double.add_eq_zero_of_signbit _ _
      (Double.signbit_add _ _ (Double.signbit_mul_self _) (Double.signbit_mul_self _))
      (Double.signbit_mul_self _),
    Double.add_eq_zero_of_signbit _ _ (Double.signbit_mul_self _) (Double.signbit_mul_self _),
    and_assoc]

theorem Electric_Field.electric_plus_toField (a b : Electric_Field) :
    (a.operator_plus b).toField = a.toField.sum b.toField := rfl

theorem Magnetic_Field.magnetic_plus_toField (a b : Magnetic_Field) :
    (a.operator_plus b).toField = a.toField.sum b.toField := rfl

/-! ## Rounding errors: relative error bounds, the magnitude, scaling -/

namespace Double

theorem excessFuel_small (fuel f : Nat) (hf : f < 2 ^ 53) : excessFuel fuel f = 0 := by
  cases fuel with
  | zero => rfl
  | succ n => simp only [excessFuel, hf, if_true]

theorem excessFuel_spec (fuel f : Nat) (hfuel : f < 2 ^ 53 * 2 ^ fuel) (hf : 2 ^ 53 ≤ f) :
    2 ^ 52 * 2 ^ excessFuel fuel f ≤ f ∧ f < 2 ^ 53 * 2 ^ excessFuel fuel f := by
  induction fuel generalizing f with
  | zero => simp only [pow_zero, mul_one] at hfuel; omega
  | succ n ih =>
    have hnot : ¬ f < 2 ^ 53 := by omega
    simp only [excessFuel, hnot, if_false]
    rw [pow_succ 2 n] at hfuel
    by_cases h2 : f / 2 < 2 ^ 53
    · rw [excessFuel_small n _ h2]
      simp only [zero_add, pow_one]
      omega
    · have h3 : 2 ^ 53 ≤ f / 2 := by omega
      have h4 : f / 2 < 2 ^ 53 * 2 ^ n := by omega
      obtain ⟨a, b⟩ := ih (f / 2) h4 h3
      rw [pow_succ 2 (excessFuel n (f / 2))]
      generalize 2 ^ excessFuel n (f / 2) = T at a b ⊢
      omega

theorem excess_small (f : Nat) (hf : f < 2 ^ 53) : excess f = 0 :=
  excessFuel_small f f hf

theorem excess_spec (f : Nat) (hf : 2 ^ 52 ≤ f) :
    2 ^ 52 * 2 ^ excess f ≤ f ∧ f < 2 ^ 53 * 2 ^ excess f := by
  by_cases h : f < 2 ^ 53
  · rw [excess_small f h]
    simp only [pow_zero, mul_one]
    omega
  · have hlt : f < 2 ^ 53 * 2 ^ f := by
      have h1 : f < 2 ^ f := Nat.lt_two_pow f
      have h2 : 0 < 2 ^ 53 := by positivity
      nlinarith
    exact excessFuel_spec f f hlt (by omega)

/-- The error of `roundRatio`: the result is within half a grid step `T` of
`n / d`, the step is one unit below `2^53`, and a result in the normal range
is at least `2^52` steps. -/
theorem roundRatio_bounds (n d : Nat) (hd : 0 < d) :
    ∃ T : Nat, 0 < T ∧ (n / d < 2 ^ 53 → T = 1)
      ∧ (2 ^ 52 ≤ n / d → 2 ^ 52 * T ≤ roundRatio n d)
      ∧ 2 * n ≤ 2 * (roundRatio n d * d) + d * T
      ∧ 2 * (roundRatio n d * d) ≤ 2 * n + d * T := by
  refine ⟨2 ^ excess (n / d), by positivity, ?_, ?_, ?_⟩
  · intro h
    rw [excess_small _ h, pow_zero]
  · intro h
    have hs := (excess_spec _ h).1
    have hT : 0 < 2 ^ excess (n / d) := by positivity
    have hq : 2 ^ 52 ≤ n / (d * 2 ^ excess (n / d)) := by
      rw [← Nat.div_div_eq_div_mul]
      exact (Nat.le_div_iff_mul_le hT).mpr hs
    simp only [roundRatio]
    generalize 2 ^ excess (n / d) = T at hq hT ⊢
    generalize n / (d * T) = q at hq ⊢
    have h1 : 2 ^ 52 * T ≤ q * T := Nat.mul_le_mul_right T hq
    have h2 : q * T ≤ (q + 1) * T := Nat.mul_le_mul_right T (by omega)
    split_ifs <;> omega
  · have hT : 0 < 2 ^ excess (n / d) := by positivity
    simp only [roundRatio]
    generalize 2 ^ excess (n / d) = T at hT ⊢
    have hd2 : 0 < d * T := Nat.mul_pos hd hT
    have hdm := Nat.div_add_mod n (d * T)
    have hml := Nat.mod_lt n hd2
    generalize n / (d * T) = q at hdm ⊢
    generalize n % (d * T) = ρ at hdm hml ⊢
    have e1 : q * T * d = d * T * q := by ring
    have e2 : (q + 1) * T * d = d * T * q + d * T := by ring
    generalize d * T = D at hdm hml e1 e2 hd2 ⊢
    generalize D * q = X at hdm e1 e2 ⊢
    split_ifs <;> simp only [e1, e2] <;> omega

/-- Relative error of `roundRatio` for a result in the normal range: at most
`2^-53` of the result. -/
theorem roundRatio_rel (n d : Nat) (hd : 0 < d) (hr : 2 ^ 52 ≤ roundRatio n d) :
    (2 ^ 53 - 1) * (roundRatio n d * d) ≤ 2 ^ 53 * n
      ∧ 2 ^ 53 * n ≤ (2 ^ 53 + 1) * (roundRatio n d * d) := by
  obtain ⟨T, hT, h1, h2, h3, h4⟩ := roundRatio_bounds n d hd
  have hTr : 2 ^ 52 * T ≤ roundRatio n d := by
    by_cases h : n / d < 2 ^ 53
    · rw [h1 h]; omega
    · exact h2 (by omega)
  have h5 : 2 ^ 52 * T * d ≤ roundRatio n d * d := Nat.mul_le_mul_right d hTr
  have e : 2 ^ 52 * T * d = 2 ^ 52 * (d * T) := by ring
  rw [e] at h5
  generalize roundRatio n d * d = R at h3 h4 h5 ⊢
  generalize d * T = D at h3 h4 h5
  omega

/-- Sums are rounded with relative error at most `2^-53`, with no condition:
below `2^53` units they are exact. -/
theorem roundRatio_one_rel (n : Nat) :
    (2 ^ 53 - 1) * roundRatio n 1 ≤ 2 ^ 53 * n
      ∧ 2 ^ 53 * n ≤ (2 ^ 53 + 1) * roundRatio n 1 := by
  by_cases hr : 2 ^ 52 ≤ roundRatio n 1
  · have := roundRatio_rel n 1 (by decide) hr
    simpa using this
  · obtain ⟨T, hT, h1, h2, h3, h4⟩ := roundRatio_bounds n 1 (by decide)
    simp only [Nat.div_one, Nat.mul_one, Nat.one_mul] at h1 h2 h3 h4
    have hn : n < 2 ^ 53 := by
      by_contra hc
      have := h2 (by omega)
      omega
    have hT1 := h1 hn
    subst hT1
    omega

theorem isqrtFuel_lt (fuel n : Nat) (h : n < 4 ^ fuel) :
    n < (isqrtFuel fuel n + 1) * (isqrtFuel fuel n + 1) := by
  induction fuel generalizing n with
  | zero =>
    simp only [pow_zero] at h
    simp only [isqrtFuel]
    omega
  | succ m ih =>
    simp only [isqrtFuel]
    rw [pow_succ 4 m] at h
    split_ifs with h0 h1
    · omega
    · have h4 : n / 4 < 4 ^ m := by omega
      have := ih (n / 4) h4
      have e : (2 * isqrtFuel m (n / 4) + 1 + 1) * (2 * isqrtFuel m (n / 4) + 1 + 1)
          = 4 * ((isqrtFuel m (n / 4) + 1) * (isqrtFuel m (n / 4) + 1)) := by ring
      rw [e]
      omega
    · omega

theorem isqrt_lt (n : Nat) : n < (isqrt n + 1) * (isqrt n + 1) := by
  refine isqrtFuel_lt n n ?_
  calc n < 2 ^ n := Nat.lt_two_pow n
    _ ≤ 4 ^ n := Nat.pow_le_pow_left (by decide) n

theorem le_isqrt (a m : Nat) (h : a * a ≤ m) : a ≤ isqrt m := by
  by_contra hc
  have h1 : isqrt m + 1 ≤ a := by omega
  have h2 := Nat.mul_le_mul h1 h1
  have h3 := isqrt_lt m
  omega

/-- The error of `roundSqrt` for an argument of at least `2^104`: the result
`r` is within half a grid step `T` of the square root, and is at least `2^52`
steps. -/
theorem roundSqrt_bounds (n : Nat) (hn : 2 ^ 104 ≤ n) :
    ∃ T : Nat, 0 < T ∧ 2 ^ 52 * T ≤ roundSqrt n
      ∧ 4 * (roundSqrt n * roundSqrt n) + T * T ≤ 4 * n + 4 * (roundSqrt n * T)
      ∧ 4 * n ≤ (2 * roundSqrt n + T) * (2 * roundSqrt n + T) := by
  have hs52 : 2 ^ 52 ≤ isqrt n := le_isqrt _ _ (by omega)
  have hsp := (excess_spec _ hs52).1
  have hss := isqrt_sq_le n
  have hT : 0 < 2 ^ excess (isqrt n) := by positivity
  have hP : (4 : Nat) ^ excess (isqrt n) = 2 ^ excess (isqrt n) * 2 ^ excess (isqrt n) := by
    rw [← mul_pow]
    norm_num
  refine ⟨2 ^ excess (isqrt n), hT, ?_⟩
  simp only [roundSqrt, hP]
  generalize 2 ^ excess (isqrt n) = T at hsp hT ⊢
  have hTT : 0 < T * T := Nat.mul_pos hT hT
  -- the mantissa
  have hq1 := isqrt_sq_le (n / (T * T))
  have hq2 := isqrt_lt (n / (T * T))
  have hq52 : 2 ^ 52 ≤ isqrt (n / (T * T)) := by
    refine le_isqrt _ _ ?_
    refine (Nat.le_div_iff_mul_le hTT).mpr ?_
    have := Nat.mul_le_mul hsp hsp
    have e : 2 ^ 52 * 2 ^ 52 * (T * T) = 2 ^ 52 * T * (2 ^ 52 * T) := by ring
    rw [e]
    exact le_trans this hss
  have hq1' : isqrt (n / (T * T)) * isqrt (n / (T * T)) * (T * T) ≤ n :=
    le_trans (Nat.mul_le_mul_right _ hq1) (Nat.div_mul_le_self n (T * T))
  have hq2' : n < (isqrt (n / (T * T)) + 1) * (isqrt (n / (T * T)) + 1) * (T * T) :=
    (Nat.div_lt_iff_lt_mul hTT).mp hq2
  generalize isqrt (n / (T * T)) = q at hq1' hq2' hq52 ⊢
  have ea : q * T * (q * T) = q * q * (T * T) := by ring
  have eb : (q + 1) * T * ((q + 1) * T) = q * q * (T * T) + 2 * (q * (T * T)) + T * T := by ring
  have ec : (2 * q + 1) * (2 * q + 1) * (T * T)
      = 4 * (q * q * (T * T)) + 4 * (q * (T * T)) + T * T := by ring
  have ed : (q + 1) * (q + 1) * (T * T) = q * q * (T * T) + 2 * (q * (T * T)) + T * T := by ring
  have ee : q * T * T = q * (T * T) := by ring
  have ef : (q + 1) * T * T = q * (T * T) + T * T := by ring
  have eg : (2 * (q * T) + T) * (2 * (q * T) + T)
      = 4 * (q * q * (T * T)) + 4 * (q * (T * T)) + T * T := by ring
  have eh : (2 * ((q + 1) * T) + T) * (2 * ((q + 1) * T) + T)
      = 4 * (q * q * (T * T)) + 12 * (q * (T * T)) + 9 * (T * T) := by ring
  have hb : T * T ≤ q * (T * T) := Nat.le_mul_of_pos_left _ (by omega)
  have h52a : 2 ^ 52 * T ≤ q * T := Nat.mul_le_mul_right T hq52
  have h52b : q * T ≤ (q + 1) * T := Nat.mul_le_mul_right T (by omega)
  rw [ec]
  rw [ed] at hq2'
  split_ifs <;> simp only [ea, eb, ee, ef, eg, eh] <;>
    generalize q * q * (T * T) = a at * <;> generalize q * (T * T) = b at * <;>
    generalize T * T = P at * <;> refine ⟨by omega, by omega, by omega⟩

theorem pack_of_lt (s : Bool) (k : Nat) (h : k < overflowBound) : pack s k = fin s k := by
  simp only [pack, h, if_true]

theorem pack_eq_fin {s t : Bool} {k m : Nat} (h : pack s k = fin t m) :
    t = s ∧ m = k ∧ k < overflowBound := by
  unfold pack at h
  split_ifs at h with hk
  injection h with h1 h2
  exact ⟨h1.symm, h2.symm, hk⟩

theorem unitScale_pos : 0 < unitScale := by
  unfold unitScale
  positivity

/-- The square of a finite datum whose magnitude lies between `2^-511` and
`2^506`: it is a normal number, rounded with relative error at most `2^-53`. -/
theorem sq_bounds (s : Bool) (k : Nat) (h0 : 2 ^ 563 ≤ k) (h1 : k ≤ 2 ^ 1580) :
    ∃ m : Nat, fin s k * fin s k = fin false m ∧ 2 ^ 52 ≤ m
      ∧ m * unitScale ≤ 2 * 2 ^ 3160
      ∧ (2 ^ 53 - 1) * (m * unitScale) ≤ 2 ^ 53 * (k * k)
      ∧ 2 ^ 53 * (k * k) ≤ (2 ^ 53 + 1) * (m * unitScale) := by
  have hU := unitScale_pos
  have hlow : 2 ^ 52 * unitScale ≤ k * k := by
    have e : 2 ^ 52 * unitScale = 2 ^ 563 * 2 ^ 563 := by decide!
    rw [e]
    exact Nat.mul_le_mul h0 h0
  have hup : k * k ≤ 2 ^ 3160 := by
    have e : (2 : Nat) ^ 3160 = 2 ^ 1580 * 2 ^ 1580 := by decide!
    rw [e]
    exact Nat.mul_le_mul h1 h1
  obtain ⟨T, hT, -, h2, -, -⟩ := roundRatio_bounds (k * k) unitScale hU
  have hq : 2 ^ 52 ≤ k * k / unitScale := (Nat.le_div_iff_mul_le hU).mpr hlow
  have hT1 : T ≤ 2 ^ 52 * T := Nat.le_mul_of_pos_left T (by positivity)
  have hm : 2 ^ 52 ≤ roundRatio (k * k) unitScale := by
    have := h2 hq
    have h3 : 2 ^ 52 * 1 ≤ 2 ^ 52 * T := Nat.mul_le_mul_left _ hT
    omega
  obtain ⟨ha, hb⟩ := roundRatio_rel (k * k) unitScale hU hm
  have hsmall : roundRatio (k * k) unitScale * unitScale ≤ 2 * 2 ^ 3160 := by
    generalize roundRatio (k * k) unitScale * unitScale = MU at ha hb ⊢
    generalize k * k = K at ha hb hup
    generalize (2 : Nat) ^ 3160 = A at hup ⊢
    omega
  have hfin : roundRatio (k * k) unitScale < overflowBound := by
    by_contra hc
    have h5 : overflowBound * unitScale ≤ roundRatio (k * k) unitScale * unitScale :=
      Nat.mul_le_mul_right _ (by omega)
    have h6 : 2 * 2 ^ 3160 < overflowBound * unitScale := by decide!
    omega
  refine ⟨roundRatio (k * k) unitScale, ?_, hm, hsmall, ha, hb⟩
  simp only [mul_def, mul, Bool.xor_self, roundTo]
  exact pack_of_lt _ _ hfin

/-- Accumulation of the rounding errors of `calculateMagnitude`, for error
factors between `lo` and `hi`. -/
theorem mag_chain (lo hi K0 K1 K2 M0 M1 M2 S1 S2 R : ℝ)
    (hlo : 0 ≤ lo) (hlo1 : lo ≤ 1) (hhi : 1 ≤ hi)
    (hM2 : 0 ≤ M2)
    (a0 : lo * M0 ≤ K0) (b0 : K0 ≤ hi * M0)
    (a1 : lo * M1 ≤ K1) (b1 : K1 ≤ hi * M1)
    (a2 : lo * M2 ≤ K2) (b2 : K2 ≤ hi * M2)
    (a3 : lo * S1 ≤ M0 + M1) (b3 : M0 + M1 ≤ hi * S1)
    (a4 : lo * S2 ≤ S1 + M2) (b4 : S1 + M2 ≤ hi * S2)
    (a5 : lo ^ 2 * R ≤ S2) (b5 : S2 ≤ hi ^ 2 * R) :
    lo ^ 5 * R ≤ K0 + K1 + K2 ∧ K0 + K1 + K2 ≤ hi ^ 5 * R := by
  have hhi0 : 0 ≤ hi := by linarith
  constructor
  · have c1 : lo * (S1 + M2) ≤ M0 + M1 + M2 := by nlinarith
    have c2 : lo * (lo * S2) ≤ lo * (S1 + M2) := mul_le_mul_of_nonneg_left a4 hlo
    have c3 : lo * (M0 + M1 + M2) ≤ K0 + K1 + K2 := by nlinarith
    have c4 : lo * (lo * (lo * S2)) ≤ lo * (M0 + M1 + M2) :=
      mul_le_mul_of_nonneg_left (le_trans c2 c1) hlo
    have c5 : lo * (lo * (lo * (lo ^ 2 * R))) ≤ lo * (lo * (lo * S2)) := by
      have := mul_le_mul_of_nonneg_left a5 hlo
      have := mul_le_mul_of_nonneg_left this hlo
      exact mul_le_mul_of_nonneg_left this hlo
    have e : lo ^ 5 * R = lo * (lo * (lo * (lo ^ 2 * R))) := by ring
    rw [e]
    linarith
  · have c1 : M0 + M1 + M2 ≤ hi * (S1 + M2) := by nlinarith
    have c2 : hi * (S1 + M2) ≤ hi * (hi * S2) := mul_le_mul_of_nonneg_left b4 hhi0
    have c3 : K0 + K1 + K2 ≤ hi * (M0 + M1 + M2) := by nlinarith
    have c4 : hi * (M0 + M1 + M2) ≤ hi * (hi * (hi * S2)) :=
      mul_le_mul_of_nonneg_left (le_trans c1 c2) hhi0
    have c5 : hi * (hi * (hi * S2)) ≤ hi * (hi * (hi * (hi ^ 2 * R))) := by
      have := mul_le_mul_of_nonneg_left b5 hhi0
      have := mul_le_mul_of_nonneg_left this hhi0
      exact mul_le_mul_of_nonneg_left this hhi0
    have e : hi ^ 5 * R = hi * (hi * (hi * (hi ^ 2 * R))) := by ring
    rw [e]
    linarith

/-- The triangle inequality with the slack of the error factors. -/
theorem triangle_chain (lo hi a1 a2 a3 b1 b2 b3 c1 c2 c3 ra rb rc t : ℝ)
    (hlo : 0 < lo) (hhi : 1 ≤ hi) (hra : 0 ≤ ra) (hrb : 0 ≤ rb)
    (e1 : (lo * c1) ^ 2 ≤ (a1 + b1) ^ 2) (e2 : (lo * c2) ^ 2 ≤ (a2 + b2) ^ 2)
    (e3 : (lo * c3) ^ 2 ≤ (a3 + b3) ^ 2)
    (ha : a1 ^ 2 + a2 ^ 2 + a3 ^ 2 ≤ hi ^ 5 * ra ^ 2)
    (hb : b1 ^ 2 + b2 ^ 2 + b3 ^ 2 ≤ hi ^ 5 * rb ^ 2)
    (hc : lo ^ 5 * rc ^ 2 ≤ c1 ^ 2 + c2 ^ 2 + c3 ^ 2)
    (hsum : ra + rb ≤ hi * t) :
    lo ^ 7 * rc ^ 2 ≤ hi ^ 8 * t ^ 2 := by
  have hhi0 : 0 ≤ hi := by linarith
  set X := hi ^ 3 * ra with hX
  set Y := hi ^ 3 * rb with hY
  have hX0 : 0 ≤ X := by positivity
  have hY0 : 0 ≤ Y := by positivity
  have hhi56 : hi ^ 5 ≤ hi ^ 6 := pow_le_pow_right₀ hhi (by norm_num)
  have haX : a1 ^ 2 + a2 ^ 2 + a3 ^ 2 ≤ X ^ 2 := by
    have : hi ^ 5 * ra ^ 2 ≤ hi ^ 6 * ra ^ 2 :=
      mul_le_mul_of_nonneg_right hhi56 (sq_nonneg ra)
    have e : X ^ 2 = hi ^ 6 * ra ^ 2 := by rw [hX]; ring
    rw [e]; linarith
  have hbY : b1 ^ 2 + b2 ^ 2 + b3 ^ 2 ≤ Y ^ 2 := by
    have : hi ^ 5 * rb ^ 2 ≤ hi ^ 6 * rb ^ 2 :=
      mul_le_mul_of_nonneg_right hhi56 (sq_nonneg rb)
    have e : Y ^ 2 = hi ^ 6 * rb ^ 2 := by rw [hY]; ring
    rw [e]; linarith
  -- Cauchy-Schwarz
  have hdot : a1 * b1 + a2 * b2 + a3 * b3 ≤ X * Y := by
    have hsq : (a1 * b1 + a2 * b2 + a3 * b3) ^ 2 ≤ (X * Y) ^ 2 := by
      have h1 : (a1 * b1 + a2 * b2 + a3 * b3) ^ 2
          ≤ (a1 ^ 2 + a2 ^ 2 + a3 ^ 2) * (b1 ^ 2 + b2 ^ 2 + b3 ^ 2) := by
        nlinarith [sq_nonneg (a1 * b2 - a2 * b1), sq_nonneg (a1 * b3 - a3 * b1),
          sq_nonneg (a2 * b3 - a3 * b2)]
      have h2 : (a1 ^ 2 + a2 ^ 2 + a3 ^ 2) * (b1 ^ 2 + b2 ^ 2 + b3 ^ 2) ≤ X ^ 2 * Y ^ 2 :=
        mul_le_mul haX hbY (by positivity) (by positivity)
      have e : (X * Y) ^ 2 = X ^ 2 * Y ^ 2 := by ring
      rw [e]; linarith
    have hXY : 0 ≤ X * Y := mul_nonneg hX0 hY0
    exact le_trans (le_abs_self _) (abs_le_of_sq_le_sq hsq hXY)
  have htri : (a1 + b1) ^ 2 + (a2 + b2) ^ 2 + (a3 + b3) ^ 2 ≤ (X + Y) ^ 2 := by
    have f1 : (a1 + b1) ^ 2 + (a2 + b2) ^ 2 + (a3 + b3) ^ 2
        = (a1 ^ 2 + a2 ^ 2 + a3 ^ 2) + (b1 ^ 2 + b2 ^ 2 + b3 ^ 2)
          + 2 * (a1 * b1 + a2 * b2 + a3 * b3) := by ring
    have f2 : (X + Y) ^ 2 = X ^ 2 + Y ^ 2 + 2 * (X * Y) := by ring
    rw [f1, f2]
    linarith
  have hXYt : X + Y ≤ hi ^ 4 * t := by
    have : hi ^ 3 * (ra + rb) ≤ hi ^ 3 * (hi * t) :=
      mul_le_mul_of_nonneg_left hsum (by positivity)
    have e1 : X + Y = hi ^ 3 * (ra + rb) := by rw [hX, hY]; ring
    have e2 : hi ^ 4 * t = hi ^ 3 * (hi * t) := by ring
    rw [e1, e2]; exact this
  have hXYsq : (X + Y) ^ 2 ≤ (hi ^ 4 * t) ^ 2 :=
    pow_le_pow_left₀ (by positivity) hXYt 2
  have hcs : lo ^ 2 * (c1 ^ 2 + c2 ^ 2 + c3 ^ 2)
      ≤ (a1 + b1) ^ 2 + (a2 + b2) ^ 2 + (a3 + b3) ^ 2 := by
    have f1 : (lo * c1) ^ 2 = lo ^ 2 * c1 ^ 2 := by ring
    have f2 : (lo * c2) ^ 2 = lo ^ 2 * c2 ^ 2 := by ring
    have f3 : (lo * c3) ^ 2 = lo ^ 2 * c3 ^ 2 := by ring
    rw [f1] at e1; rw [f2] at e2; rw [f3] at e3
    linarith
  have hrc2 : lo ^ 2 * (lo ^ 5 * rc ^ 2) ≤ lo ^ 2 * (c1 ^ 2 + c2 ^ 2 + c3 ^ 2) :=
    mul_le_mul_of_nonneg_left hc (by positivity)
  have e7 : lo ^ 7 * rc ^ 2 = lo ^ 2 * (lo ^ 5 * rc ^ 2) := by ring
  have e8 : hi ^ 8 * t ^ 2 = (hi ^ 4 * t) ^ 2 := by ring
  rw [e7, e8]
  linarith

/-- The square of a finite datum that is a zero or has a magnitude between
`2^-511` and `2^506`. -/
theorem sq_bounds_or_zero (s : Bool) (k : Nat)
    (h : k = 0 ∨ (2 ^ 563 ≤ k ∧ k ≤ 2 ^ 1580)) :
    ∃ m : Nat, fin s k * fin s k = fin false m
      ∧ m * unitScale ≤ 2 * 2 ^ 3160
      ∧ (2 ^ 53 - 1) * (m * unitScale) ≤ 2 ^ 53 * (k * k)
      ∧ 2 ^ 53 * (k * k) ≤ (2 ^ 53 + 1) * (m * unitScale) := by
  rcases h with h | ⟨h0, h1⟩
  · subst h
    refine ⟨0, ?_, ?_, ?_, ?_⟩
    · rw [mul_fin_zero, Bool.xor_self]
    · rw [Nat.zero_mul]; exact Nat.zero_le _
    · rw [Nat.zero_mul, Nat.mul_zero, Nat.mul_zero]
    · exact Nat.zero_le _
  · obtain ⟨m, e, -, h2, h3, h4⟩ := sq_bounds s k h0 h1
    exact ⟨m, e, h2, h3, h4⟩

/-- The sum of two non-negative finite data below a bound `A` that excludes
overflow. -/
theorem add_bounds (x y A : Nat) (hx : (x + y) * unitScale ≤ A)
    (hA : 2 * A < overflowBound * unitScale) :
    ∃ s : Nat, fin false x + fin false y = fin false s
      ∧ s * unitScale ≤ 2 * A
      ∧ (2 ^ 53 - 1) * (s * unitScale) ≤ 2 ^ 53 * ((x + y) * unitScale)
      ∧ 2 ^ 53 * ((x + y) * unitScale) ≤ (2 ^ 53 + 1) * (s * unitScale) := by
  obtain ⟨ha, hb⟩ := roundRatio_one_rel (x + y)
  have ha' := Nat.mul_le_mul_right unitScale ha
  have hb' := Nat.mul_le_mul_right unitScale hb
  have e1 : (2 ^ 53 - 1) * roundRatio (x + y) 1 * unitScale
      = (2 ^ 53 - 1) * (roundRatio (x + y) 1 * unitScale) := by ring
  have e2 : 2 ^ 53 * (x + y) * unitScale = 2 ^ 53 * ((x + y) * unitScale) := by ring
  have e3 : (2 ^ 53 + 1) * roundRatio (x + y) 1 * unitScale
      = (2 ^ 53 + 1) * (roundRatio (x + y) 1 * unitScale) := by ring
  rw [e1, e2] at ha'
  rw [e2, e3] at hb'
  have hs : roundRatio (x + y) 1 * unitScale ≤ 2 * A := by
    generalize roundRatio (x + y) 1 * unitScale = S at ha' hb' ⊢
    generalize (x + y) * unitScale = X at ha' hb' hx
    omega
  have hfin : roundRatio (x + y) 1 < overflowBound := by
    by_contra hc
    have := Nat.mul_le_mul_right unitScale (Nat.le_of_not_lt hc)
    omega
  refine ⟨roundRatio (x + y) 1, ?_, hs, ha', hb'⟩
  rw [add_fin_same]
  exact pack_of_lt _ _ hfin

/-- The square root of a non-negative finite datum is rounded with relative
error at most `2^-53`. -/
theorem sqrt_bounds (s : Nat) :
    ∃ r : Nat, sqrt (fin false s) = fin false r
      ∧ r * r ≤ 2 * (s * unitScale)
      ∧ ((1 - 1 / 2 ^ 53) * (r : ℝ)) ^ 2 ≤ (s : ℝ) * (unitScale : ℝ)
      ∧ (s : ℝ) * (unitScale : ℝ) ≤ ((1 + 1 / 2 ^ 53) * (r : ℝ)) ^ 2 := by
  by_cases hs : s = 0
  · subst hs
    refine ⟨0, by simp [sqrt], by simp, by simp, by simp⟩
  · have hU : 2 ^ 104 ≤ unitScale := by decide!
    have hn : 2 ^ 104 ≤ s * unitScale :=
      le_trans hU (Nat.le_mul_of_pos_left _ (Nat.pos_of_ne_zero hs))
    obtain ⟨T, hT, h52, hlow, hup⟩ := roundSqrt_bounds _ hn
    have hrr : roundSqrt (s * unitScale) * roundSqrt (s * unitScale)
        ≤ 2 * (s * unitScale) := by
      have h1 := Nat.mul_le_mul_left (roundSqrt (s * unitScale)) h52
      have e : roundSqrt (s * unitScale) * (2 ^ 52 * T)
          = 2 ^ 52 * (roundSqrt (s * unitScale) * T) := by ring
      rw [e] at h1
      generalize roundSqrt (s * unitScale) * roundSqrt (s * unitScale) = RR at h1 hlow ⊢
      generalize roundSqrt (s * unitScale) * T = RT at h1 hlow
      generalize s * unitScale = N at hlow ⊢
      omega
    refine ⟨roundSqrt (s * unitScale), by simp [sqrt, hs], hrr, ?_, ?_⟩
    all_goals
      clear hU hn hrr
      generalize unitScale = U at h52 hlow hup ⊢
      have hT' : (0 : ℝ) < (T : ℝ) := by exact_mod_cast hT
      have h52' : (2 : ℝ) ^ 52 * (T : ℝ) ≤ (roundSqrt (s * U) : ℝ) := by
        exact_mod_cast h52
      have hlow' : 4 * ((roundSqrt (s * U) : ℝ) * (roundSqrt (s * U) : ℝ))
          + (T : ℝ) * (T : ℝ)
          ≤ 4 * ((s : ℝ) * (U : ℝ)) + 4 * ((roundSqrt (s * U) : ℝ) * (T : ℝ)) := by
        exact_mod_cast hlow
      have hup' : 4 * ((s : ℝ) * (U : ℝ))
          ≤ (2 * (roundSqrt (s * U) : ℝ) + (T : ℝ))
            * (2 * (roundSqrt (s * U) : ℝ) + (T : ℝ)) := by
        exact_mod_cast hup
      generalize (roundSqrt (s * U) : ℝ) = r at h52' hlow' hup' ⊢
      generalize ((s : ℝ) * (U : ℝ)) = N at hlow' hup' ⊢
      generalize (T : ℝ) = t at hT' h52' hlow' hup' ⊢
      have hr0 : 0 ≤ r := by
        have : 0 ≤ 2 ^ 52 * t := by positivity
        linarith
      have ht : t ≤ r / 2 ^ 52 := by
        rw [le_div_iff₀ (by positivity)]
        linarith
    · have h1 : 0 ≤ 2 * ((1 - 1 / 2 ^ 53) * r) := by
        have : (0:ℝ) ≤ 1 - 1 / 2 ^ 53 := by norm_num
        positivity
      have h2 : 2 * ((1 - 1 / 2 ^ 53) * r) ≤ 2 * r - t := by
        have e : 2 * ((1 - 1 / 2 ^ 53) * r) = 2 * r - r / 2 ^ 52 := by ring
        rw [e]; linarith
      have h3 := pow_le_pow_left₀ h1 h2 2
      nlinarith
    · have h1 : 0 ≤ 2 * r + t := by linarith
      have h2 : 2 * r + t ≤ 2 * ((1 + 1 / 2 ^ 53) * r) := by
        have e : 2 * ((1 + 1 / 2 ^ 53) * r) = 2 * r + r / 2 ^ 52 := by ring
        rw [e]; linarith
      have h3 := pow_le_pow_left₀ h1 h2 2
      nlinarith

theorem rel_lower (x e : Nat) (h : (2 ^ 53 - 1) * x ≤ 2 ^ 53 * e) :
    (1 - 1 / 2 ^ 53) * (x : ℝ) ≤ (e : ℝ) := by
  have h' : ((2 ^ 53 - 1 : ℕ) : ℝ) * (x : ℝ) ≤ (2 : ℝ) ^ 53 * (e : ℝ) := by
    exact_mod_cast h
  have e1 : ((2 ^ 53 - 1 : ℕ) : ℝ) = 2 ^ 53 - 1 := by norm_num
  rw [e1] at h'
  have e2 : (1 - 1 / 2 ^ 53) * (x : ℝ) = ((2 ^ 53 - 1) * (x : ℝ)) / 2 ^ 53 := by
    field_simp
  rw [e2, div_le_iff₀ (by positivity)]
  linarith

theorem rel_upper (x e : Nat) (h : 2 ^ 53 * e ≤ (2 ^ 53 + 1) * x) :
    (e : ℝ) ≤ (1 + 1 / 2 ^ 53) * (x : ℝ) := by
  have h' : (2 : ℝ) ^ 53 * (e : ℝ) ≤ ((2 : ℝ) ^ 53 + 1) * (x : ℝ) := by
    exact_mod_cast h
  have e2 : (1 + 1 / 2 ^ 53) * (x : ℝ) = ((2 ^ 53 + 1) * (x : ℝ)) / 2 ^ 53 := by
    field_simp
  rw [e2, le_div_iff₀ (by positivity)]
  linarith

theorem inRange_inv (x : Double) (h : inRange x = true) :
    ∃ (s : Bool) (k : Nat), x = fin s k ∧ (k = 0 ∨ (2 ^ 563 ≤ k ∧ k ≤ 2 ^ 1580)) := by
  cases x with
  | nan => exact absurd h (by simp [inRange])
  | inf s => exact absurd h (by simp [inRange])
  | fin s k =>
    refine ⟨s, k, rfl, ?_⟩
    simp only [inRange, Bool.or_eq_true, Bool.and_eq_true, decide_eq_true_eq] at h
    exact h

theorem sq_le_of_range (k : Nat) (h : k = 0 ∨ (2 ^ 563 ≤ k ∧ k ≤ 2 ^ 1580)) :
    k * k ≤ 2 ^ 3160 := by
  have e : (2 : Nat) ^ 3160 = 2 ^ 1580 * 2 ^ 1580 := by decide!
  rw [e]
  rcases h with h | ⟨-, h1⟩
  · subst h; exact Nat.zero_le _
  · exact Nat.mul_le_mul h1 h1

end Double

open Double in
/-- The magnitude of a field in range: it is finite, and its square is the
sum of the squares of the components up to a factor between `(1 - 2^-53)^5`
and `(1 + 2^-53)^5`. -/
theorem Field.calculateMagnitude_bounds (f : Field) (h : f.inRange = true) :
    ∃ (s0 s1 s2 : Bool) (k0 k1 k2 r : Nat),
      f.value0 = fin s0 k0 ∧ f.value1 = fin s1 k1 ∧ f.value2 = fin s2 k2
      ∧ f.calculateMagnitude = fin false r
      ∧ r * r ≤ 40 * 2 ^ 3160
      ∧ (1 - 1 / 2 ^ 53 : ℝ) ^ 5 * (r : ℝ) ^ 2 ≤ (k0 : ℝ) ^ 2 + (k1 : ℝ) ^ 2 + (k2 : ℝ) ^ 2
      ∧ (k0 : ℝ) ^ 2 + (k1 : ℝ) ^ 2 + (k2 : ℝ) ^ 2 ≤ (1 + 1 / 2 ^ 53 : ℝ) ^ 5 * (r : ℝ) ^ 2 := by
  simp only [Field.inRange, Bool.and_eq_true] at h
  obtain ⟨⟨h0, h1⟩, h2⟩ := h
  obtain ⟨s0, k0, e0, r0⟩ := inRange_inv _ h0
  obtain ⟨s1, k1, e1, r1⟩ := inRange_inv _ h1
  obtain ⟨s2, k2, e2, r2⟩ := inRange_inv _ h2
  obtain ⟨m0, q0, u0, a0, b0⟩ := sq_bounds_or_zero s0 k0 r0
  obtain ⟨m1, q1, u1, a1, b1⟩ := sq_bounds_or_zero s1 k1 r1
  obtain ⟨m2, q2, u2, a2, b2⟩ := sq_bounds_or_zero s2 k2 r2
  have hA1 : 2 * (4 * 2 ^ 3160) < overflowBound * unitScale := by decide!
  have hA2 : 2 * (10 * 2 ^ 3160) < overflowBound * unitScale := by decide!
  have hx1 : (m0 + m1) * unitScale ≤ 4 * 2 ^ 3160 := by
    rw [Nat.add_mul]; omega
  obtain ⟨t1, q3, u3, a3, b3⟩ := add_bounds m0 m1 _ hx1 hA1
  have hx2 : (t1 + m2) * unitScale ≤ 10 * 2 ^ 3160 := by
    rw [Nat.add_mul]; omega
  obtain ⟨t2, q4, u4, a4, b4⟩ := add_bounds t1 m2 _ hx2 hA2
  obtain ⟨r, q5, u5, a5, b5⟩ := sqrt_bounds t2
  refine ⟨s0, s1, s2, k0, k1, k2, r, e0, e1, e2, ?_, by omega, ?_⟩
  · unfold Field.calculateMagnitude
    rw [e0, e1, e2, q0, q1, q2, q3, q4, q5]
  · clear hA1 hA2 hx1 hx2 u0 u1 u2 u3 u4 u5 q0 q1 q2 q3 q4 q5 r0 r1 r2
    rw [Nat.add_mul] at a3 b3 a4 b4
    generalize unitScale = U at a0 b0 a1 b1 a2 b2 a3 b3 a4 b4 a5 b5
    have A0 := rel_lower _ _ a0
    have B0 := rel_upper _ _ b0
    have A1 := rel_lower _ _ a1
    have B1 := rel_upper _ _ b1
    have A2 := rel_lower _ _ a2
    have B2 := rel_upper _ _ b2
    have A3 := rel_lower _ _ a3
    have B3 := rel_upper _ _ b3
    have A4 := rel_lower _ _ a4
    have B4 := rel_upper _ _ b4
    push_cast at A0 B0 A1 B1 A2 B2 A3 B3 A4 B4
    have hlo : (0 : ℝ) ≤ 1 - 1 / 2 ^ 53 := by norm_num
    have hlo1 : (1 - 1 / 2 ^ 53 : ℝ) ≤ 1 := by norm_num
    have hhi : (1 : ℝ) ≤ 1 + 1 / 2 ^ 53 := by norm_num
    have hM2 : (0 : ℝ) ≤ (m2 : ℝ) * (U : ℝ) := by positivity
    have A5 : (1 - 1 / 2 ^ 53 : ℝ) ^ 2 * (r : ℝ) ^ 2 ≤ (t2 : ℝ) * (U : ℝ) := by
      rw [← mul_pow]; exact a5
    have B5 : (t2 : ℝ) * (U : ℝ) ≤ (1 + 1 / 2 ^ 53 : ℝ) ^ 2 * (r : ℝ) ^ 2 := by
      rw [← mul_pow]; exact b5
    have := mag_chain (1 - 1 / 2 ^ 53) (1 + 1 / 2 ^ 53)
      ((k0 : ℝ) * k0) ((k1 : ℝ) * k1) ((k2 : ℝ) * k2)
      ((m0 : ℝ) * U) ((m1 : ℝ) * U) ((m2 : ℝ) * U) ((t1 : ℝ) * U) ((t2 : ℝ) * U) ((r : ℝ) ^ 2)
      hlo hlo1 hhi hM2 A0 B0 A1 B1 A2 B2 A3 B3 A4 B4 A5 B5
    simpa only [pow_two] using this

namespace Double

/-- Addition of finite data rounds their exact sum. -/
theorem add_fin_eq_roundTo (a b : Bool) (j k : Nat) :
    fin a j + fin b k = roundTo (exactSum a j b k).1 (exactSum a j b k).2 1 := by
  by_cases hab : a = b
  · subst hab
    rw [exactSum_same, add_fin_same]
  · rw [exactSum_opp a b j k hab]
    simp only [add_def, add, hab, if_false]
    by_cases hjk : j = k
    · simp only [hjk, if_true]
      exact (roundTo_zero _ _ (by decide)).symm
    · simp only [hjk, if_false]
      by_cases hlt : k < j
      · simp only [hlt, if_true]
      · simp only [hlt, if_false]

/-- A finite component sum is at most `1 / (1 - 2^-53)` times the exact sum
of the signed components, in absolute value. -/
theorem add_fin_lower (a b t : Bool) (j k m : Nat)
    (h : fin a j + fin b k = fin t m) :
    ((1 - 1 / 2 ^ 53) * (m : ℝ)) ^ 2 ≤ (((sval a j : ℤ) : ℝ) + ((sval b k : ℤ) : ℝ)) ^ 2 := by
  rw [add_fin_eq_roundTo] at h
  unfold roundTo at h
  obtain ⟨-, hm, -⟩ := pack_eq_fin h
  have hrel := (roundRatio_one_rel (exactSum a j b k).2).1
  rw [← hm] at hrel
  have h1 := rel_lower _ _ hrel
  have hsq := exactSum_sq a b j k
  have hsq' : (((exactSum a j b k).2 : ℝ)) ^ 2
      = (((sval a j : ℤ) : ℝ) + ((sval b k : ℤ) : ℝ)) ^ 2 := by
    exact_mod_cast hsq
  rw [← hsq']
  have h0 : (0 : ℝ) ≤ (1 - 1 / 2 ^ 53) * (m : ℝ) := by
    have : (0 : ℝ) ≤ 1 - 1 / 2 ^ 53 := by norm_num
    positivity
  exact pow_le_pow_left₀ h0 h1 2

theorem sval_sq_real (s : Bool) (k : Nat) : ((sval s k : ℤ) : ℝ) ^ 2 = (k : ℝ) ^ 2 := by
  have := sval_sq s k
  exact_mod_cast this

/-- The numerical slack: `(1 + 2^-53)^8 <= (1 + 2^-49)^2 * (1 - 2^-53)^7`. -/
theorem slack_num :
    (1 + 1 / 2 ^ 53 : ℝ) ^ 8 ≤ (1 + 1 / 2 ^ 49) ^ 2 * (1 - 1 / 2 ^ 53) ^ 7 := by
  norm_num

end Double

open Double in
/-- The triangle inequality for the computed magnitudes of fields in range,
with a slack of `2^-49` for the rounding errors. -/
theorem Field.triangle_slack (a b : Field) (ha : a.inRange = true) (hb : b.inRange = true)
    (hc : (a.sum b).inRange = true) :
    leWithin 49 (a.sum b).calculateMagnitude (a.calculateMagnitude + b.calculateMagnitude)
      = true := by
  obtain ⟨sa0, sa1, sa2, ja0, ja1, ja2, ra, ea0, ea1, ea2, ema, hra, la, ua⟩ :=
    a.calculateMagnitude_bounds ha
  obtain ⟨sb0, sb1, sb2, jb0, jb1, jb2, rb, eb0, eb1, eb2, emb, hrb, lb, ub⟩ :=
    b.calculateMagnitude_bounds hb
  obtain ⟨sc0, sc1, sc2, jc0, jc1, jc2, rc, ec0, ec1, ec2, emc, hrc, lc, uc⟩ :=
    (a.sum b).calculateMagnitude_bounds hc
  simp only [Field.sum] at ec0 ec1 ec2
  rw [ea0, eb0] at ec0
  rw [ea1, eb1] at ec1
  rw [ea2, eb2] at ec2
  have c0 := add_fin_lower _ _ _ _ _ _ ec0
  have c1 := add_fin_lower _ _ _ _ _ _ ec1
  have c2 := add_fin_lower _ _ _ _ _ _ ec2
  -- the sum of the two magnitudes
  have hbig : (2 : Nat) ^ 1583 * 2 ^ 1583 = 64 * 2 ^ 3160 := by decide!
  have hra' : ra ≤ 2 ^ 1583 := by
    by_contra hcon
    have := Nat.mul_le_mul (Nat.le_of_lt (Nat.lt_of_not_le hcon))
      (Nat.le_of_lt (Nat.lt_of_not_le hcon))
    have h2 : 0 < (2 : Nat) ^ 3160 := by positivity
    omega
  have hrb' : rb ≤ 2 ^ 1583 := by
    by_contra hcon
    have := Nat.mul_le_mul (Nat.le_of_lt (Nat.lt_of_not_le hcon))
      (Nat.le_of_lt (Nat.lt_of_not_le hcon))
    have h2 : 0 < (2 : Nat) ^ 3160 := by positivity
    omega
  have hsumU : (ra + rb) * unitScale ≤ 2 * 2 ^ 1583 * unitScale :=
    Nat.mul_le_mul_right _ (by omega)
  have hA : 2 * (2 * 2 ^ 1583 * unitScale) < overflowBound * unitScale := by decide!
  obtain ⟨t, et, -, -, bt⟩ := add_bounds ra rb _ hsumU hA
  have bt' : 2 ^ 53 * (ra + rb) ≤ (2 ^ 53 + 1) * t := by
    have e1 : 2 ^ 53 * ((ra + rb) * unitScale) = (2 ^ 53 * (ra + rb)) * unitScale := by ring
    have e2 : (2 ^ 53 + 1) * (t * unitScale) = ((2 ^ 53 + 1) * t) * unitScale := by ring
    rw [e1, e2] at bt
    exact Nat.le_of_mul_le_mul_right bt unitScale_pos
  have hsum := rel_upper _ _ bt'
  push_cast at hsum
  rw [emc, ema, emb, et]
  clear hbig hra hrb hrc hra' hrb' hsumU hA bt bt' et ema emb emc ec0 ec1 ec2
  have key := triangle_chain (1 - 1 / 2 ^ 53) (1 + 1 / 2 ^ 53)
    ((sval sa0 ja0 : ℤ) : ℝ) ((sval sa1 ja1 : ℤ) : ℝ) ((sval sa2 ja2 : ℤ) : ℝ)
    ((sval sb0 jb0 : ℤ) : ℝ) ((sval sb1 jb1 : ℤ) : ℝ) ((sval sb2 jb2 : ℤ) : ℝ)
    (jc0 : ℝ) (jc1 : ℝ) (jc2 : ℝ) (ra : ℝ) (rb : ℝ) (rc : ℝ) (t : ℝ)
    (by norm_num) (by norm_num) (Nat.cast_nonneg _) (Nat.cast_nonneg _)
    c0 c1 c2
    (by rw [sval_sq_real, sval_sq_real, sval_sq_real]; exact ua)
    (by rw [sval_sq_real, sval_sq_real, sval_sq_real]; exact ub)
    lc hsum
  have hnum := slack_num
  have hlo7 : (0 : ℝ) < (1 - 1 / 2 ^ 53) ^ 7 := by
    have : (0 : ℝ) < 1 - 1 / 2 ^ 53 := by norm_num
    positivity
  have ht0 : (0 : ℝ) ≤ (t : ℝ) := Nat.cast_nonneg _
  have hrc0 : (0 : ℝ) ≤ (rc : ℝ) := Nat.cast_nonneg _
  have h1 : (1 - 1 / 2 ^ 53 : ℝ) ^ 7 * (rc : ℝ) ^ 2
      ≤ (1 - 1 / 2 ^ 53 : ℝ) ^ 7 * ((1 + 1 / 2 ^ 49) * (t : ℝ)) ^ 2 := by
    have h2 : (1 + 1 / 2 ^ 53 : ℝ) ^ 8 * (t : ℝ) ^ 2
        ≤ ((1 + 1 / 2 ^ 49) ^ 2 * (1 - 1 / 2 ^ 53) ^ 7) * (t : ℝ) ^ 2 :=
      mul_le_mul_of_nonneg_right hnum (sq_nonneg _)
    have e : (1 - 1 / 2 ^ 53 : ℝ) ^ 7 * ((1 + 1 / 2 ^ 49) * (t : ℝ)) ^ 2
        = ((1 + 1 / 2 ^ 49) ^ 2 * (1 - 1 / 2 ^ 53) ^ 7) * (t : ℝ) ^ 2 := by ring
    rw [e]
    exact le_trans key h2
  have h3 : (rc : ℝ) ^ 2 ≤ ((1 + 1 / 2 ^ 49) * (t : ℝ)) ^ 2 :=
    le_of_mul_le_mul_left h1 hlo7
  have h4 : (rc : ℝ) ≤ (1 + 1 / 2 ^ 49) * (t : ℝ) := by
    have h5 : (0 : ℝ) ≤ (1 + 1 / 2 ^ 49) * (t : ℝ) := mul_nonneg (by norm_num) ht0
    exact le_trans (le_abs_self _) (abs_le_of_sq_le_sq h3 h5)
  have h6 : (rc : ℝ) * 2 ^ 49 ≤ (t : ℝ) * (2 ^ 49 + 1) := by
    have e : (t : ℝ) * (2 ^ 49 + 1) = ((1 + 1 / 2 ^ 49) * (t : ℝ)) * 2 ^ 49 := by
      field_simp
      ring
    rw [e]
    exact mul_le_mul_of_nonneg_right h4 (by positivity)
  have h7 : rc * 2 ^ 49 ≤ t * (2 ^ 49 + 1) := by exact_mod_cast h6
  simp only [leWithin, decide_eq_true_eq]
  exact h7

namespace Double

theorem errFactor_ge_one : 1 ≤ errFactor := by
  unfold errFactor
  norm_num

theorem errFactor_pow_ge_one (n : Nat) : 1 ≤ errFactor ^ n :=
  one_le_pow₀ errFactor_ge_one

theorem errFactor_pow_pos (n : Nat) : 0 < errFactor ^ n :=
  lt_of_lt_of_le one_pos (errFactor_pow_ge_one n)

theorem Rel.rel_refl (x : ℚ) : Rel 0 x x := by
  simp [Rel]

theorem Rel.rel_cast {m n : Nat} {x y : ℚ} (h : Rel m x y) (e : m = n) : Rel n x y :=
  e ▸ h

theorem Rel.rel_symm {n : Nat} {x y : ℚ} (h : Rel n x y) : Rel n y x :=
  ⟨h.2, h.1⟩

theorem Rel.rel_trans {m n : Nat} {x y z : ℚ} (h1 : Rel m x y) (h2 : Rel n y z) :
    Rel (m + n) x z := by
  have hm := errFactor_pow_pos m
  have hn := errFactor_pow_pos n
  constructor
  · calc x ≤ errFactor ^ m * y := h1.1
      _ ≤ errFactor ^ m * (errFactor ^ n * z) := mul_le_mul_of_nonneg_left h2.1 hm.le
      _ = errFactor ^ (m + n) * z := by rw [pow_add]; ring
  · calc z ≤ errFactor ^ n * y := h2.2
      _ ≤ errFactor ^ n * (errFactor ^ m * x) := mul_le_mul_of_nonneg_left h1.2 hn.le
      _ = errFactor ^ (m + n) * x := by rw [pow_add]; ring

theorem Rel.rel_mul {m n : Nat} {x y x' y' : ℚ} (h1 : Rel m x y) (h2 : Rel n x' y')
    (hx : 0 ≤ x) (hy : 0 ≤ y) (hx' : 0 ≤ x') (hy' : 0 ≤ y') :
    Rel (m + n) (x * x') (y * y') := by
  have hm := errFactor_pow_pos m
  have hn := errFactor_pow_pos n
  constructor
  · calc x * x' ≤ (errFactor ^ m * y) * (errFactor ^ n * y') :=
        mul_le_mul h1.1 h2.1 hx' (mul_nonneg hm.le hy)
      _ = errFactor ^ (m + n) * (y * y') := by rw [pow_add]; ring
  · calc y * y' ≤ (errFactor ^ m * x) * (errFactor ^ n * x') :=
        mul_le_mul h1.2 h2.2 hy' (mul_nonneg hm.le hx)
      _ = errFactor ^ (m + n) * (x * x') := by rw [pow_add]; ring

theorem Rel.rel_inv {n : Nat} {x y : ℚ} (h : Rel n x y) (hx : 0 < x) (hy : 0 < y) :
    Rel n x⁻¹ y⁻¹ := by
  have hn := errFactor_pow_pos n
  constructor
  · rw [inv_le_iff_one_le_mul₀ hx]
    calc (1 : ℚ) = y⁻¹ * y := (inv_mul_cancel₀ hy.ne').symm
      _ ≤ y⁻¹ * (errFactor ^ n * x) := mul_le_mul_of_nonneg_left h.2 (inv_nonneg.mpr hy.le)
      _ = errFactor ^ n * y⁻¹ * x := by ring
  · rw [inv_le_iff_one_le_mul₀ hy]
    calc (1 : ℚ) = x⁻¹ * x := (inv_mul_cancel₀ hx.ne').symm
      _ ≤ x⁻¹ * (errFactor ^ n * y) := mul_le_mul_of_nonneg_left h.1 (inv_nonneg.mpr hx.le)
      _ = errFactor ^ n * x⁻¹ * y := by ring

theorem Rel.rel_div {m n : Nat} {x y x' y' : ℚ} (h1 : Rel m x y) (h2 : Rel n x' y')
    (hx : 0 ≤ x) (hy : 0 ≤ y) (hx' : 0 < x') (hy' : 0 < y') :
    Rel (m + n) (x / x') (y / y') := by
  rw [div_eq_mul_inv, div_eq_mul_inv]
  exact Rel.rel_mul h1 (Rel.rel_inv h2 hx' hy') hx hy (inv_nonneg.mpr hx'.le) (inv_nonneg.mpr hy'.le)

theorem Rel.rel_near {n e : Nat} {x y : ℚ} (h : Rel n x y) (hy : 0 ≤ y)
    (hnum : errFactor ^ n - 1 ≤ 1 / 2 ^ e) : near e x y := by
  have hn := errFactor_pow_pos n
  have h1n := errFactor_pow_ge_one n
  unfold Double.near
  rw [abs_of_nonneg hy, abs_le]
  have hb : (errFactor ^ n - 1) * y ≤ y / 2 ^ e := by
    have := mul_le_mul_of_nonneg_right hnum hy
    calc (errFactor ^ n - 1) * y ≤ 1 / 2 ^ e * y := this
      _ = y / 2 ^ e := by ring
  constructor
  · -- y - x ≤ (H^n - 1) * y, from y ≤ H^n x
    have h2 : y - x ≤ (errFactor ^ n - 1) * x := by linarith [h.2]
    have hx : x ≤ errFactor ^ n * y := h.1
    -- y - x ≤ y - y / H^n ≤ (H^n - 1) y
    have h3 : y ≤ errFactor ^ n * x := h.2
    have h4 : y - x ≤ (errFactor ^ n - 1) * y := by
      have : x ≥ y / errFactor ^ n := by
        rw [ge_iff_le, div_le_iff₀ hn]
        linarith
      have h5 : y - y / errFactor ^ n ≤ (errFactor ^ n - 1) * y := by
        have e1 : y - y / errFactor ^ n = y * ((errFactor ^ n - 1) / errFactor ^ n) := by
          field_simp
          ring
        rw [e1]
        have : (errFactor ^ n - 1) / errFactor ^ n ≤ errFactor ^ n - 1 := by
          rw [div_le_iff₀ hn]
          nlinarith
        calc y * ((errFactor ^ n - 1) / errFactor ^ n) ≤ y * (errFactor ^ n - 1) :=
            mul_le_mul_of_nonneg_left this hy
          _ = (errFactor ^ n - 1) * y := by ring
      linarith
    linarith
  · linarith [h.1]

theorem isNormal_pack {s : Bool} {k : Nat} (h : isNormal (pack s k) = true) :
    pack s k = fin s k ∧ 2 ^ 52 ≤ k := by
  unfold pack at h ⊢
  split_ifs at h ⊢ with hk
  · exact ⟨rfl, by simpa [isNormal] using h⟩
  · simp [isNormal] at h

theorem unitScale_cast_pos : (0 : ℚ) < (unitScale : ℚ) := by
  exact_mod_cast unitScale_pos

theorem absRat_nonneg (x : Double) : 0 ≤ absRat x := by
  cases x with
  | nan => exact le_refl _
  | inf s => exact le_refl _
  | fin s k => exact div_nonneg (Nat.cast_nonneg _) unitScale_cast_pos.le

theorem signRat_mul_self (x : Double) : signRat x * signRat x = 1 := by
  unfold signRat
  split_ifs <;> norm_num

theorem signRat_xor (a b : Bool) (j k : Nat) :
    signRat (fin (xor a b) j) = signRat (fin a k) * signRat (fin b k) := by
  cases a <;> cases b <;> simp [signRat, signbit]

/-- A rounded ratio in the normal range agrees with the exact ratio up to one
rounding. -/
theorem rel_of_round (n d : Nat) (hd : 0 < d) (hr : 2 ^ 52 ≤ roundRatio n d) :
    0 < n ∧ Rel 1 ((roundRatio n d : ℚ)) ((n : ℚ) / (d : ℚ)) := by
  obtain ⟨h1, h2⟩ := roundRatio_rel n d hd hr
  have hn : 0 < n := by
    rcases Nat.eq_zero_or_pos n with h0 | h0
    · exfalso
      subst h0
      have hp : 0 < roundRatio 0 d * d :=
        Nat.mul_pos (lt_of_lt_of_le (by norm_num) hr) hd
      omega
    · exact h0
  refine ⟨hn, ?_⟩
  have h1' : ((2 : ℚ) ^ 53 - 1) * ((roundRatio n d : ℚ) * (d : ℚ)) ≤ 2 ^ 53 * (n : ℚ) := by
    have : (((2 ^ 53 - 1 : ℕ) : ℚ)) * ((roundRatio n d : ℚ) * (d : ℚ))
        ≤ (2 : ℚ) ^ 53 * (n : ℚ) := by exact_mod_cast h1
    have e1 : ((2 ^ 53 - 1 : ℕ) : ℚ) = 2 ^ 53 - 1 := by norm_num
    rwa [e1] at this
  have h2' : (2 : ℚ) ^ 53 * (n : ℚ) ≤ ((2 : ℚ) ^ 53 + 1) * ((roundRatio n d : ℚ) * (d : ℚ)) := by
    exact_mod_cast h2
  have hd' : (0 : ℚ) < (d : ℚ) := by exact_mod_cast hd
  have hr0 : (0 : ℚ) ≤ (roundRatio n d : ℚ) := Nat.cast_nonneg _
  generalize (roundRatio n d : ℚ) = r at h1' h2' hr0 ⊢
  generalize (n : ℚ) = N at h1' h2' ⊢
  generalize (d : ℚ) = D at h1' h2' hd' ⊢
  unfold Rel errFactor
  rw [pow_one]
  constructor
  · rw [div_mul_div_comm, le_div_iff₀ (by positivity)]
    have e : r * ((2 ^ 53 - 1) * D) = (2 ^ 53 - 1) * (r * D) := by ring
    rw [e]
    exact h1'
  · rw [div_le_iff₀ hd', div_mul_eq_mul_div, div_mul_eq_mul_div, le_div_iff₀ (by norm_num)]
    have : 0 ≤ r * D := mul_nonneg hr0 hd'.le
    nlinarith

theorem Rel.rel_div_right {n : Nat} {x y : ℚ} (h : Rel n x y) (c : ℚ) (hc : 0 < c) :
    Rel n (x / c) (y / c) := by
  have hn := errFactor_pow_pos n
  constructor
  · rw [← mul_div_assoc]
    exact div_le_div_of_nonneg_right h.1 hc.le
  · rw [← mul_div_assoc]
    exact div_le_div_of_nonneg_right h.2 hc.le

/-- A product that is a normal number: the factors are finite and not zero,
the sign is the product of the signs, and the magnitude is the exact product
up to one rounding. -/
theorem mul_normal (x y : Double) (h : isNormal (x * y) = true) :
    0 < absRat x ∧ 0 < absRat y
      ∧ Rel 1 (absRat (x * y)) (absRat x * absRat y)
      ∧ signRat (x * y) = signRat x * signRat y := by
  rw [mul_def] at h ⊢
  cases x with
  | nan => simp [mul, isNormal] at h
  | inf a =>
    cases y with
    | nan => simp [mul, isNormal] at h
    | inf b => simp [mul, isNormal] at h
    | fin b k =>
      simp only [mul] at h
      split_ifs at h <;> simp [isNormal] at h
  | fin a j =>
    cases y with
    | nan => simp [mul, isNormal] at h
    | inf b =>
      simp only [mul] at h
      split_ifs at h <;> simp [isNormal] at h
    | fin b k =>
      have hm : mul (fin a j) (fin b k) = pack (xor a b) (roundRatio (j * k) unitScale) := by
        simp only [mul, roundTo]
      rw [hm] at h ⊢
      obtain ⟨hp, hr⟩ := isNormal_pack h
      rw [hp]
      obtain ⟨hn, hrel⟩ := rel_of_round (j * k) unitScale unitScale_pos hr
      have hj : 0 < j := Nat.pos_of_mul_pos_right hn
      have hk : 0 < k := Nat.pos_of_mul_pos_left hn
      have hU := unitScale_cast_pos
      have hj' : (0 : ℚ) < (j : ℚ) := by exact_mod_cast hj
      have hk' : (0 : ℚ) < (k : ℚ) := by exact_mod_cast hk
      refine ⟨div_pos hj' hU, div_pos hk' hU, ?_, signRat_xor a b _ _⟩
      have h3 := Rel.rel_div_right hrel _ hU
      have e : ((j * k : ℕ) : ℚ) / (unitScale : ℚ) / (unitScale : ℚ)
          = (j : ℚ) / (unitScale : ℚ) * ((k : ℚ) / (unitScale : ℚ)) := by
        rw [Nat.cast_mul]
        generalize (unitScale : ℚ) = U at hU ⊢
        field_simp
      rw [e] at h3
      exact h3

/-- A quotient that is a normal number: both operands are finite and not
zero, the sign is the product of the signs, and the magnitude is the exact
quotient up to one rounding. -/
theorem div_normal (x y : Double) (h : isNormal (x / y) = true) :
    0 < absRat x ∧ 0 < absRat y
      ∧ Rel 1 (absRat (x / y)) (absRat x / absRat y)
      ∧ signRat (x / y) = signRat x * signRat y := by
  rw [div_def] at h ⊢
  cases x with
  | nan => simp [div, isNormal] at h
  | inf a =>
    cases y with
    | nan => simp [div, isNormal] at h
    | inf b => simp [div, isNormal] at h
    | fin b k => simp [div, isNormal] at h
  | fin a j =>
    cases y with
    | nan => simp [div, isNormal] at h
    | inf b => simp [div, isNormal] at h
    | fin b k =>
      by_cases hk0 : k = 0
      · simp only [div, hk0, if_true] at h
        split_ifs at h <;> simp [isNormal] at h
      · have hm : div (fin a j) (fin b k)
            = pack (xor a b) (roundRatio (j * unitScale) k) := by
          simp only [div, hk0, if_false, roundTo]
        rw [hm] at h ⊢
        obtain ⟨hp, hr⟩ := isNormal_pack h
        rw [hp]
        have hk : 0 < k := Nat.pos_of_ne_zero hk0
        obtain ⟨hn, hrel⟩ := rel_of_round (j * unitScale) k hk hr
        have hj : 0 < j := Nat.pos_of_mul_pos_right hn
        have hU := unitScale_cast_pos
        have hj' : (0 : ℚ) < (j : ℚ) := by exact_mod_cast hj
        have hk' : (0 : ℚ) < (k : ℚ) := by exact_mod_cast hk
        refine ⟨div_pos hj' hU, div_pos hk' hU, ?_, signRat_xor a b _ _⟩
        have h3 := Rel.rel_div_right hrel _ hU
        have e : ((j * unitScale : ℕ) : ℚ) / (k : ℚ) / (unitScale : ℚ)
            = (j : ℚ) / (unitScale : ℚ) / ((k : ℚ) / (unitScale : ℚ)) := by
          rw [Nat.cast_mul]
          generalize (unitScale : ℚ) = U at hU ⊢
          field_simp
          ring
        rw [e] at h3
        exact h3

theorem signRat_inv (x : Double) : (signRat x)⁻¹ = signRat x := by
  unfold signRat
  split_ifs <;> norm_num

theorem signRat_abs (x : Double) : |signRat x| = 1 := by
  unfold signRat
  split_ifs <;> norm_num

/-- Agreement of the magnitudes up to `n` roundings gives agreement of the
signed values within `2^-e`. -/
theorem near_of_rel {n e : Nat} {a b : ℚ} (σ : ℚ) (hσ : |σ| = 1) (h : Rel n a b)
    (hb : 0 ≤ b) (hnum : errFactor ^ n - 1 ≤ 1 / 2 ^ e) : near e (σ * a) (σ * b) := by
  have h1 := Rel.rel_near h hb hnum
  unfold near at h1 ⊢
  rw [← mul_sub, abs_mul, abs_mul, hσ, one_mul, one_mul]
  exact h1

/-- The chain of roundings behind `(k * Q) / D` against `k * (Q / D)`. -/
theorem chain_numerator (sk sQ sD ak aQ aD aKQ aE aF : ℚ)
    (hsk : |sk| = 1) (hsQ : |sQ| = 1) (hsD : |sD| = 1)
    (hk : 0 < ak) (hQ : 0 < aQ) (hD : 0 < aD) (hKQ : 0 < aKQ) (hE : 0 ≤ aE)
    (r1 : Rel 1 aKQ (ak * aQ)) (r2 : Rel 1 aE (aQ / aD)) (r3 : Rel 1 aF (aKQ / aD)) :
    near 51 (sk * sQ * sD * aF) (sk * ak * (sQ * sD * aE)) := by
  have e : sk * ak * (sQ * sD * aE) = sk * sQ * sD * (ak * aE) := by ring
  rw [e]
  have hσ : |sk * sQ * sD| = 1 := by
    rw [abs_mul, abs_mul, hsk, hsQ, hsD]
    norm_num
  have c1 : Rel (1 + 0) (aKQ / aD) (ak * aQ / aD) :=
    Rel.rel_div r1 (Rel.rel_refl _) hKQ.le (mul_nonneg hk.le hQ.le) hD hD
  have c2 : Rel (0 + 1) (ak * aE) (ak * (aQ / aD)) :=
    Rel.rel_mul (Rel.rel_refl _) r2 hk.le hk.le hE (div_nonneg hQ.le hD.le)
  rw [← mul_div_assoc] at c2
  have c3 : Rel 3 aF (ak * aE) := (Rel.rel_trans (Rel.rel_trans r3 c1) c2.rel_symm).rel_cast rfl
  exact near_of_rel _ hσ c3 (mul_nonneg hk.le hE) (by unfold errFactor; norm_num)

/-- The chain of roundings behind `Q / (C * (k * r) * (k * r))` against
`(Q / (C * r * r)) / k ^ 2`. -/
theorem chain_square (sk sQ sC sr skr ak aQ aC ar akr aCr aCrr aE aCk aCkk aF : ℚ)
    (hsk : sk * sk = 1) (hsQ : |sQ| = 1) (hsC : |sC| = 1) (hsr : sr * sr = 1)
    (hskr : skr * skr = 1)
    (hk : 0 < ak) (hQ : 0 < aQ) (hC : 0 < aC) (hr : 0 < ar) (hkr : 0 < akr)
    (hCr : 0 < aCr) (hCrr : 0 < aCrr) (hE : 0 ≤ aE) (hCk : 0 < aCk) (hCkk : 0 < aCkk)
    (r1 : Rel 1 akr (ak * ar)) (r2 : Rel 1 aCr (aC * ar)) (r3 : Rel 1 aCrr (aCr * ar))
    (r4 : Rel 1 aE (aQ / aCrr)) (r5 : Rel 1 aCk (aC * akr)) (r6 : Rel 1 aCkk (aCk * akr))
    (r7 : Rel 1 aF (aQ / aCkk)) :
    near 49 (sQ * (sC * skr * skr) * aF) (sQ * (sC * sr * sr) * aE / (sk * ak) ^ 2) := by
  have e1 : sQ * (sC * skr * skr) * aF = sQ * sC * aF := by
    rw [mul_assoc sC, hskr, mul_one]
  have e2 : sQ * (sC * sr * sr) * aE / (sk * ak) ^ 2 = sQ * sC * (aE / ak ^ 2) := by
    rw [mul_assoc sC, hsr, mul_one, mul_pow, pow_two sk, hsk, one_mul, mul_div_assoc]
  rw [e1, e2]
  have hσ : |sQ * sC| = 1 := by
    rw [abs_mul, hsQ, hsC]
    norm_num
  have d1 : Rel (1 + (0 + 1)) aCk (aC * (ak * ar)) :=
    Rel.rel_trans r5 (Rel.rel_mul (Rel.rel_refl _) r1 hC.le hC.le hkr.le (mul_nonneg hk.le hr.le))
  have d2 : Rel (1 + (1 + (0 + 1) + 1)) aCkk (aC * (ak * ar) * (ak * ar)) :=
    Rel.rel_trans r6 (Rel.rel_mul d1 r1 hCk.le (mul_nonneg hC.le (mul_nonneg hk.le hr.le))
      hkr.le (mul_nonneg hk.le hr.le))
  have hprod : 0 < aC * (ak * ar) * (ak * ar) :=
    mul_pos (mul_pos hC (mul_pos hk hr)) (mul_pos hk hr)
  have d3 : Rel (1 + (0 + (1 + (1 + (0 + 1) + 1)))) aF
      (aQ / (aC * (ak * ar) * (ak * ar))) :=
    Rel.rel_trans r7 (Rel.rel_div (Rel.rel_refl _) d2 hQ.le hQ.le hCkk hprod)
  have u1 : Rel (1 + (1 + 0)) aCrr (aC * ar * ar) :=
    Rel.rel_trans r3 (Rel.rel_mul r2 (Rel.rel_refl _) hCr.le (mul_nonneg hC.le hr.le) hr.le hr.le)
  have hprod2 : 0 < aC * ar * ar := mul_pos (mul_pos hC hr) hr
  have u2 : Rel (1 + (0 + (1 + (1 + 0)))) aE (aQ / (aC * ar * ar)) :=
    Rel.rel_trans r4 (Rel.rel_div (Rel.rel_refl _) u1 hQ.le hQ.le hCrr hprod2)
  have hk2 : 0 < ak ^ 2 := by positivity
  have u3 : Rel (1 + (0 + (1 + (1 + 0))) + 0) (aE / ak ^ 2)
      (aQ / (aC * ar * ar) / ak ^ 2) :=
    Rel.rel_div u2 (Rel.rel_refl _) hE (div_nonneg hQ.le hprod2.le) hk2 hk2
  have e3 : aQ / (aC * ar * ar) / ak ^ 2 = aQ / (aC * (ak * ar) * (ak * ar)) := by
    rw [div_div]
    congr 1
    ring
  rw [e3] at u3
  have c : Rel 8 aF (aE / ak ^ 2) := (Rel.rel_trans d3 u3.rel_symm).rel_cast rfl
  exact near_of_rel _ hσ c (div_nonneg hE hk2.le) (by unfold errFactor; norm_num)

/-- The chain of roundings behind `N / (P * (k * r))` against
`(N / (P * r)) / k`. -/
theorem chain_denominator (sk sN sP sr ak aN aP ar akr aPr aB aPk aF : ℚ)
    (hski : sk⁻¹ = sk) (hsk : |sk| = 1) (hsN : |sN| = 1) (hsP : |sP| = 1) (hsr : |sr| = 1)
    (hk : 0 < ak) (hN : 0 < aN) (hP : 0 < aP) (hr : 0 < ar) (hkr : 0 < akr)
    (hPr : 0 < aPr) (hB : 0 ≤ aB) (hPk : 0 < aPk)
    (r1 : Rel 1 akr (ak * ar)) (r2 : Rel 1 aPr (aP * ar)) (r3 : Rel 1 aB (aN / aPr))
    (r4 : Rel 1 aPk (aP * akr)) (r5 : Rel 1 aF (aN / aPk)) :
    near 50 (sN * (sP * (sk * sr)) * aF) (sN * (sP * sr) * aB / (sk * ak)) := by
  have e1 : sN * (sP * sr) * aB / (sk * ak) = sN * (sP * (sk * sr)) * (aB / ak) := by
    rw [div_eq_mul_inv, mul_inv, hski, div_eq_mul_inv]
    ring
  rw [e1]
  have hσ : |sN * (sP * (sk * sr))| = 1 := by
    rw [abs_mul, abs_mul, abs_mul, hsk, hsN, hsP, hsr]
    norm_num
  have d1 : Rel (1 + (0 + 1)) aPk (aP * (ak * ar)) :=
    Rel.rel_trans r4 (Rel.rel_mul (Rel.rel_refl _) r1 hP.le hP.le hkr.le (mul_nonneg hk.le hr.le))
  have hprod : 0 < aP * (ak * ar) := mul_pos hP (mul_pos hk hr)
  have d2 : Rel (1 + (0 + (1 + (0 + 1)))) aF (aN / (aP * (ak * ar))) :=
    Rel.rel_trans r5 (Rel.rel_div (Rel.rel_refl _) d1 hN.le hN.le hPk hprod)
  have hprod2 : 0 < aP * ar := mul_pos hP hr
  have u1 : Rel (1 + (0 + 1)) aB (aN / (aP * ar)) :=
    Rel.rel_trans r3 (Rel.rel_div (Rel.rel_refl _) r2 hN.le hN.le hPr hprod2)
  have u2 : Rel (1 + (0 + 1) + 0) (aB / ak) (aN / (aP * ar) / ak) :=
    Rel.rel_div u1 (Rel.rel_refl _) hB (div_nonneg hN.le hprod2.le) hk hk
  have e3 : aN / (aP * ar) / ak = aN / (aP * (ak * ar)) := by
    rw [div_div]
    congr 1
    ring
  rw [e3] at u2
  have c : Rel 5 aF (aB / ak) := (Rel.rel_trans d2 u2.rel_symm).rel_cast rfl
  exact near_of_rel _ hσ c (div_nonneg hB hk.le) (by unfold errFactor; norm_num)

/-- Scaling the numerator of a normal quotient by `k`. -/
theorem div_scale_numerator (k Q D : Double) (h1 : isNormal (k * Q) = true)
    (h2 : isNormal (Q / D) = true) (h3 : isNormal (k * Q / D) = true) :
    near 51 (toRat (k * Q / D)) (toRat k * toRat (Q / D)) := by
  obtain ⟨hk, hQ, r1, s1⟩ := mul_normal k Q h1
  obtain ⟨-, hD, r2, s2⟩ := div_normal Q D h2
  obtain ⟨hkQ, -, r3, s3⟩ := div_normal (k * Q) D h3
  unfold toRat
  rw [s3, s1, s2]
  exact chain_numerator _ _ _ _ _ _ _ _ _ (signRat_abs k) (signRat_abs Q) (signRat_abs D)
    hk hQ hD hkQ (absRat_nonneg _) r1 r2 r3

/-- Scaling `r` by `k` in the denominator `C * r * r` of a normal quotient. -/
theorem div_scale_square (k Q r C : Double) (h1 : isNormal (k * r) = true)
    (h2 : isNormal (C * r) = true) (h3 : isNormal (C * r * r) = true)
    (h4 : isNormal (Q / (C * r * r)) = true)
    (h5 : isNormal (C * (k * r)) = true) (h6 : isNormal (C * (k * r) * (k * r)) = true)
    (h7 : isNormal (Q / (C * (k * r) * (k * r))) = true) :
    near 49 (toRat (Q / (C * (k * r) * (k * r))))
      (toRat (Q / (C * r * r)) / toRat k ^ 2) := by
  obtain ⟨hk, hr, r1, -⟩ := mul_normal k r h1
  obtain ⟨hC, -, r2, s2⟩ := mul_normal C r h2
  obtain ⟨hCr, -, r3, s3⟩ := mul_normal (C * r) r h3
  obtain ⟨hQ, hCrr, r4, s4⟩ := div_normal Q (C * r * r) h4
  obtain ⟨-, hkr, r5, s5⟩ := mul_normal C (k * r) h5
  obtain ⟨hCkr, -, r6, s6⟩ := mul_normal (C * (k * r)) (k * r) h6
  obtain ⟨-, hCkk, r7, s7⟩ := div_normal Q (C * (k * r) * (k * r)) h7
  unfold toRat
  rw [s7, s6, s5, s4, s3, s2]
  exact chain_square _ _ _ _ _ _ _ _ _ _ _ _ _ _ _ _ (signRat_mul_self k) (signRat_abs Q)
    (signRat_abs C) (signRat_mul_self r) (signRat_mul_self (k * r)) hk hQ hC hr hkr hCr hCrr
    (absRat_nonneg _) hCkr hCkk r1 r2 r3 r4 r5 r6 r7

/-- Scaling `r` by `k` in the denominator `P * r` of a normal quotient. -/
theorem div_scale_denominator (k N r P : Double) (h1 : isNormal (k * r) = true)
    (h2 : isNormal (P * r) = true) (h3 : isNormal (N / (P * r)) = true)
    (h4 : isNormal (P * (k * r)) = true) (h5 : isNormal (N / (P * (k * r))) = true) :
    near 50 (toRat (N / (P * (k * r)))) (toRat (N / (P * r)) / toRat k) := by
  obtain ⟨hk, hr, r1, s1⟩ := mul_normal k r h1
  obtain ⟨hP, -, r2, s2⟩ := mul_normal P r h2
  obtain ⟨hN, hPr, r3, s3⟩ := div_normal N (P * r) h3
  obtain ⟨-, hkr, r4, s4⟩ := mul_normal P (k * r) h4
  obtain ⟨-, hPkr, r5, s5⟩ := div_normal N (P * (k * r)) h5
  unfold toRat
  rw [s5, s4, s3, s2, s1]
  exact chain_denominator _ _ _ _ _ _ _ _ _ _ _ _ _ (signRat_inv k) (signRat_abs k)
    (signRat_abs N) (signRat_abs P) (signRat_abs r) hk hN hP hr hkr hPr (absRat_nonneg _)
    hPkr r1 r2 r3 r4 r5

theorem excess_unique (f s : Nat) (h1 : 2 ^ 52 * 2 ^ s ≤ f) (h2 : f < 2 ^ 53 * 2 ^ s) :
    excess f = s := by
  have hs : 0 < 2 ^ s := by positivity
  have hf : 2 ^ 52 ≤ f := le_trans (Nat.le_mul_of_pos_right _ hs) h1
  obtain ⟨a, b⟩ := excess_spec f hf
  have c1 : 2 ^ excess f < 2 ^ (s + 1) := by
    rw [pow_succ 2 s]
    generalize 2 ^ excess f = T at a b ⊢
    generalize 2 ^ s = S at h1 h2 ⊢
    omega
  have c2 : 2 ^ s < 2 ^ (excess f + 1) := by
    rw [pow_succ 2 (excess f)]
    generalize 2 ^ excess f = T at a b ⊢
    generalize 2 ^ s = S at h1 h2 ⊢
    omega
  have d1 := (Nat.pow_lt_pow_iff_right (by norm_num : 1 < 2)).mp c1
  have d2 := (Nat.pow_lt_pow_iff_right (by norm_num : 1 < 2)).mp c2
  omega

/-- Doubling a ratio in the normal range doubles its rounding. -/
theorem roundRatio_double (n d : Nat) (hd : 0 < d) (h : 2 ^ 52 * d ≤ n) :
    roundRatio (2 * n) d = 2 * roundRatio n d := by
  have hf : 2 ^ 52 ≤ n / d := (Nat.le_div_iff_mul_le hd).mpr h
  obtain ⟨a, b⟩ := excess_spec (n / d) hf
  have a' : 2 ^ 52 * 2 ^ excess (n / d) * d ≤ n := (Nat.le_div_iff_mul_le hd).mp a
  have b' : n < 2 ^ 53 * 2 ^ excess (n / d) * d := (Nat.div_lt_iff_lt_mul hd).mp b
  have he : excess (2 * n / d) = excess (n / d) + 1 := by
    apply excess_unique
    · rw [Nat.le_div_iff_mul_le hd, pow_succ 2 (excess (n / d))]
      have e : 2 ^ 52 * (2 ^ excess (n / d) * 2) * d
          = 2 * (2 ^ 52 * 2 ^ excess (n / d) * d) := by ring
      rw [e]
      omega
    · rw [Nat.div_lt_iff_lt_mul hd, pow_succ 2 (excess (n / d))]
      have e : 2 ^ 53 * (2 ^ excess (n / d) * 2) * d
          = 2 * (2 ^ 53 * 2 ^ excess (n / d) * d) := by ring
      rw [e]
      omega
  simp only [roundRatio]
  rw [he, pow_succ 2 (excess (n / d))]
  have e2 : d * (2 ^ excess (n / d) * 2) = 2 * (d * 2 ^ excess (n / d)) := by ring
  rw [e2, Nat.mul_div_mul_left _ _ (by norm_num : 0 < 2), Nat.mul_mod_mul_left]
  generalize 2 ^ excess (n / d) = T
  generalize n / (d * T) = q
  generalize n % (d * T) = ρ
  have e3 : q * (T * 2) = 2 * (q * T) := by ring
  have e4 : (q + 1) * (T * 2) = 2 * ((q + 1) * T) := by ring
  rw [e3, e4]
  generalize d * T = D
  split_ifs <;> first | rfl | omega

/-- Scaling a ratio in the normal range by a power of two scales its
rounding. -/
theorem roundRatio_pow (a n d : Nat) (hd : 0 < d) (h : 2 ^ 52 * d ≤ n) :
    roundRatio (2 ^ a * n) d = 2 ^ a * roundRatio n d := by
  induction a with
  | zero => rw [pow_zero, Nat.one_mul, Nat.one_mul]
  | succ a ih =>
    have hp : 0 < 2 ^ a := by positivity
    have h2 : 2 ^ 52 * d ≤ 2 ^ a * n := le_trans h (Nat.le_mul_of_pos_left _ hp)
    have e : 2 ^ (a + 1) * n = 2 * (2 ^ a * n) := by rw [pow_succ 2 a]; ring
    rw [e, roundRatio_double _ _ hd h2, ih, pow_succ 2 a]
    ring

/-- The rounding depends on the ratio only. -/
theorem roundRatio_cancel (n d c : Nat) (hc : 0 < c) :
    roundRatio (n * c) (d * c) = roundRatio n d := by
  simp only [roundRatio]
  rw [Nat.mul_div_mul_right _ _ hc]
  have e : d * c * 2 ^ excess (n / d) = d * 2 ^ excess (n / d) * c := by ring
  rw [e, Nat.mul_div_mul_right _ _ hc, Nat.mul_mod_mul_right]
  generalize 2 ^ excess (n / d) = T
  generalize n / (d * T) = q
  generalize n % (d * T) = ρ
  generalize d * T = D
  have e1 : 2 * (ρ * c) = (2 * ρ) * c := by ring
  rw [e1]
  by_cases h1 : 2 * ρ < D
  · have h1' : 2 * ρ * c < D * c := Nat.mul_lt_mul_of_pos_right h1 hc
    simp only [h1, h1', if_true]
  · by_cases h2 : 2 * ρ = D
    · have h2' : 2 * ρ * c = D * c := by rw [h2]
      have h3 : ¬ D * c < D * c := lt_irrefl _
      simp only [h2, h2', h3, lt_irrefl, if_false, if_true]
    · have h1' : ¬ 2 * ρ * c < D * c := by
        intro hh
        exact h1 (Nat.lt_of_mul_lt_mul_right hh)
      have h2' : ¬ 2 * ρ * c = D * c := by
        intro hh
        exact h2 (Nat.eq_of_mul_eq_mul_right hc hh)
      simp only [h1, h2, h1', h2', if_false]

/-- Two ratios in the normal range that differ by a power of two have
roundings that differ by the same power of two. -/
theorem roundRatio_scaled (n d n' d' a b : Nat) (hd : 0 < d) (hd' : 0 < d')
    (h : 2 ^ b * (n' * d) = 2 ^ a * (n * d')) (h1 : 2 ^ 52 * d ≤ n)
    (h2 : 2 ^ 52 * d' ≤ n') :
    2 ^ b * roundRatio n' d' = 2 ^ a * roundRatio n d := by
  rw [← roundRatio_pow b n' d' hd' h2, ← roundRatio_pow a n d hd h1,
    ← roundRatio_cancel (2 ^ b * n') d' d hd, ← roundRatio_cancel (2 ^ a * n) d d' hd']
  have e1 : 2 ^ b * n' * d = 2 ^ b * (n' * d) := by ring
  have e2 : 2 ^ a * n * d' = 2 ^ a * (n * d') := by ring
  rw [e1, e2, h, Nat.mul_comm d' d]

theorem isBinary64_fin (s : Bool) (k : Nat) :
    isBinary64 (fin s k)
      = (decide (k < overflowBound) && decide (roundRatio k 1 = k)) := rfl

theorem isFinite_pack {s : Bool} {k : Nat} (h : isFinite (pack s k) = true) :
    pack s k = fin s k := by
  unfold pack at h ⊢
  split_ifs at h ⊢ with hk
  · rfl
  · simp [isFinite] at h

theorem roundRatio_normal (n d : Nat) (hd : 0 < d) (h : 2 ^ 52 * d ≤ n) :
    2 ^ 52 ≤ roundRatio n d := by
  obtain ⟨T, hT, -, h2, -, -⟩ := roundRatio_bounds n d hd
  have := h2 ((Nat.le_div_iff_mul_le hd).mpr h)
  have h3 : 2 ^ 52 * 1 ≤ 2 ^ 52 * T := Nat.mul_le_mul_left _ hT
  omega

theorem mulSafe_inv (x y : Double) (h : mulSafe x y = true) :
    ∃ a j b k, x = fin a j ∧ y = fin b k ∧ 2 ^ 52 * unitScale ≤ j * k
      ∧ x * y = fin (xor a b) (roundRatio (j * k) unitScale) := by
  cases x with
  | nan => simp [mulSafe] at h
  | inf a => simp [mulSafe] at h
  | fin a j =>
    cases y with
    | nan => simp [mulSafe] at h
    | inf b => simp [mulSafe] at h
    | fin b k =>
      simp only [mulSafe, Bool.and_eq_true, decide_eq_true_eq] at h
      obtain ⟨h1, h2⟩ := h
      have hm : fin a j * fin b k = pack (xor a b) (roundRatio (j * k) unitScale) := by
        rw [mul_def]
        simp only [mul, roundTo]
      rw [hm] at h2
      exact ⟨a, j, b, k, rfl, rfl, h1, by rw [hm]; exact isFinite_pack h2⟩

theorem divSafe_inv (x y : Double) (h : divSafe x y = true) :
    ∃ a j b k, x = fin a j ∧ y = fin b k ∧ 0 < k ∧ 2 ^ 52 * k ≤ j * unitScale
      ∧ x / y = fin (xor a b) (roundRatio (j * unitScale) k) := by
  cases x with
  | nan => simp [divSafe] at h
  | inf a => simp [divSafe] at h
  | fin a j =>
    cases y with
    | nan => simp [divSafe] at h
    | inf b => simp [divSafe] at h
    | fin b k =>
      simp only [divSafe, Bool.and_eq_true, decide_eq_true_eq] at h
      obtain ⟨⟨h0, h1⟩, h2⟩ := h
      have hk0 : ¬ k = 0 := by omega
      have hm : fin a j / fin b k = pack (xor a b) (roundRatio (j * unitScale) k) := by
        rw [div_def]
        simp only [div, hk0, if_false, roundTo]
      rw [hm] at h2
      exact ⟨a, j, b, k, rfl, rfl, h0, h1, by rw [hm]; exact isFinite_pack h2⟩

theorem mulSafe_normal (x y : Double) (h : mulSafe x y = true) : isNormal (x * y) = true := by
  obtain ⟨a, j, b, k, -, -, h1, e⟩ := mulSafe_inv x y h
  rw [e]
  simp only [isNormal, decide_eq_true_eq]
  exact roundRatio_normal _ _ unitScale_pos h1

theorem divSafe_normal (x y : Double) (h : divSafe x y = true) : isNormal (x / y) = true := by
  obtain ⟨a, j, b, k, -, -, h0, h1, e⟩ := divSafe_inv x y h
  rw [e]
  simp only [isNormal, decide_eq_true_eq]
  exact roundRatio_normal _ _ h0 h1

/-- Products of operands that differ by powers of two differ by the product
of the powers. -/
theorem mul_scaled (x x' y y' : Double) (a b c d : Nat)
    (hx : 2 ^ b * magnitude x' = 2 ^ a * magnitude x)
    (hy : 2 ^ d * magnitude y' = 2 ^ c * magnitude y)
    (h : mulSafe x y = true) (h' : mulSafe x' y' = true) :
    2 ^ (b + d) * magnitude (x' * y') = 2 ^ (a + c) * magnitude (x * y) := by
  obtain ⟨s, X, t, Y, rfl, rfl, h1, e⟩ := mulSafe_inv x y h
  obtain ⟨s', X', t', Y', rfl, rfl, h1', e'⟩ := mulSafe_inv x' y' h'
  rw [e, e']
  simp only [magnitude] at hx hy ⊢
  apply roundRatio_scaled _ _ _ _ _ _ unitScale_pos unitScale_pos _ h1 h1'
  have e1 : 2 ^ (b + d) * (X' * Y' * unitScale)
      = (2 ^ b * X') * (2 ^ d * Y') * unitScale := by rw [pow_add]; ring
  have e2 : 2 ^ (a + c) * (X * Y * unitScale)
      = (2 ^ a * X) * (2 ^ c * Y) * unitScale := by rw [pow_add]; ring
  rw [e1, e2, hx, hy]

/-- Quotients of operands that differ by powers of two differ by the quotient
of the powers. -/
theorem div_scaled (x x' y y' : Double) (a b c d : Nat)
    (hx : 2 ^ b * magnitude x' = 2 ^ a * magnitude x)
    (hy : 2 ^ d * magnitude y' = 2 ^ c * magnitude y)
    (h : divSafe x y = true) (h' : divSafe x' y' = true) :
    2 ^ (b + c) * magnitude (x' / y') = 2 ^ (a + d) * magnitude (x / y) := by
  obtain ⟨s, X, t, Y, rfl, rfl, h0, h1, e⟩ := divSafe_inv x y h
  obtain ⟨s', X', t', Y', rfl, rfl, h0', h1', e'⟩ := divSafe_inv x' y' h'
  rw [e, e']
  simp only [magnitude] at hx hy ⊢
  apply roundRatio_scaled _ _ _ _ _ _ h0 h0' _ h1 h1'
  have e1 : 2 ^ (b + c) * (X' * unitScale * Y)
      = (2 ^ b * X') * (2 ^ c * Y) * unitScale := by rw [pow_add]; ring
  have e2 : 2 ^ (a + d) * (X * unitScale * Y')
      = (2 ^ a * X) * (2 ^ d * Y') * unitScale := by rw [pow_add]; ring
  rw [e1, e2, hx, hy]

/-- The product of a power of two and a normal binary64 value is exact. -/
theorem mul_pow_two (s : Bool) (t : Nat) (y : Double) (hy : isBinary64 y = true)
    (hn : isNormal y = true) (h : mulSafe (fin s (2 ^ t)) y = true) :
    2 ^ 1074 * magnitude (fin s (2 ^ t) * y) = 2 ^ t * magnitude y := by
  obtain ⟨s', X, t', Y, hk, rfl, h1, e⟩ := mulSafe_inv _ y h
  obtain ⟨hs, hX⟩ := Double.fin.inj hk
  subst hs
  subst hX
  rw [e]
  rw [isBinary64_fin, Bool.and_eq_true, decide_eq_true_eq, decide_eq_true_eq] at hy
  simp only [isNormal, decide_eq_true_eq] at hn
  simp only [magnitude]
  have hc := roundRatio_scaled Y 1 (2 ^ t * Y) unitScale t 1074 Nat.one_pos unitScale_pos
    (by unfold unitScale; ring) (by omega) h1
  rw [hy.2] at hc
  exact hc

theorem absRat_eq (x : Double) : absRat x = (magnitude x : ℚ) / (unitScale : ℚ) := by
  cases x with
  | nan => simp only [absRat, magnitude, Nat.cast_zero, zero_div]
  | inf s => simp only [absRat, magnitude, Nat.cast_zero, zero_div]
  | fin s k => simp only [absRat, magnitude]

theorem pow_unitScale : 2 ^ 1074 = unitScale := rfl

/-- The value of `(k * Q) / D` for `k` a power of two. -/
theorem exact_numerator (s : Bool) (t : Nat) (Q D : Double) (hQ : isBinary64 Q = true)
    (hQn : isNormal Q = true) (h1 : mulSafe (fin s (2 ^ t)) Q = true)
    (h2 : divSafe Q D = true) (h3 : divSafe (fin s (2 ^ t) * Q) D = true) :
    toRat (fin s (2 ^ t) * Q / D) = toRat (fin s (2 ^ t)) * toRat (Q / D) := by
  have m1 := mul_pow_two s t Q hQ hQn h1
  have m2 := div_scaled Q (fin s (2 ^ t) * Q) D D t 1074 0 0 m1 rfl h2 h3
  rw [Nat.add_zero, Nat.add_zero] at m2
  obtain ⟨-, -, -, s1⟩ := mul_normal _ Q (mulSafe_normal _ _ h1)
  obtain ⟨-, -, -, s2⟩ := div_normal Q D (divSafe_normal _ _ h2)
  obtain ⟨-, -, -, s3⟩ := div_normal _ D (divSafe_normal _ _ h3)
  unfold toRat
  rw [s3, s1, s2, absRat_eq, absRat_eq, absRat_eq]
  have hk : magnitude (fin s (2 ^ t)) = 2 ^ t := rfl
  rw [hk]
  have m2u : unitScale * magnitude (fin s (2 ^ t) * Q / D)
      = 2 ^ t * magnitude (Q / D) := m2
  have hU := unitScale_cast_pos
  have m2' : (unitScale : ℚ) * (magnitude (fin s (2 ^ t) * Q / D) : ℚ)
      = 2 ^ t * (magnitude (Q / D) : ℚ) := by exact_mod_cast m2u
  generalize (magnitude (fin s (2 ^ t) * Q / D) : ℚ) = M' at m2' ⊢
  generalize (magnitude (Q / D) : ℚ) = M at m2' ⊢
  generalize signRat (fin s (2 ^ t)) = sk
  generalize signRat Q = sQ
  generalize signRat D = sD
  rw [Nat.cast_pow, Nat.cast_ofNat]
  generalize (unitScale : ℚ) = U at m2' hU ⊢
  generalize (2 : ℚ) ^ t = P at m2' ⊢
  have e : M' = P * M / U := by
    rw [eq_div_iff hU.ne']
    linarith
  rw [e]
  field_simp
  ring

/-- The value of `Q / (C * (k * r) * (k * r))` for `k` a power of two. -/
theorem exact_square (s : Bool) (t : Nat) (Q r C : Double) (hr : isBinary64 r = true)
    (hrn : isNormal r = true) (h1 : mulSafe (fin s (2 ^ t)) r = true)
    (h2 : mulSafe C r = true) (h3 : mulSafe (C * r) r = true)
    (h4 : divSafe Q (C * r * r) = true)
    (h5 : mulSafe C (fin s (2 ^ t) * r) = true)
    (h6 : mulSafe (C * (fin s (2 ^ t) * r)) (fin s (2 ^ t) * r) = true)
    (h7 : divSafe Q (C * (fin s (2 ^ t) * r) * (fin s (2 ^ t) * r)) = true) :
    toRat (Q / (C * (fin s (2 ^ t) * r) * (fin s (2 ^ t) * r)))
      = toRat (Q / (C * r * r)) / toRat (fin s (2 ^ t)) ^ 2 := by
  have m1 := mul_pow_two s t r hr hrn h1
  have m2 := mul_scaled C C r (fin s (2 ^ t) * r) 0 0 t 1074 rfl m1 h2 h5
  have m3 := mul_scaled (C * r) (C * (fin s (2 ^ t) * r)) r (fin s (2 ^ t) * r)
    (0 + t) (0 + 1074) t 1074 m2 m1 h3 h6
  have m4 := div_scaled Q Q (C * r * r) (C * (fin s (2 ^ t) * r) * (fin s (2 ^ t) * r))
    0 0 (0 + t + t) (0 + 1074 + 1074) rfl m3 h4 h7
  rw [Nat.zero_add, Nat.zero_add, Nat.zero_add, Nat.zero_add, pow_add, pow_add] at m4
  obtain ⟨-, -, -, s2⟩ := mul_normal C r (mulSafe_normal _ _ h2)
  obtain ⟨-, -, -, s3⟩ := mul_normal (C * r) r (mulSafe_normal _ _ h3)
  obtain ⟨-, -, -, s4⟩ := div_normal Q (C * r * r) (divSafe_normal _ _ h4)
  obtain ⟨-, -, -, s5⟩ := mul_normal C _ (mulSafe_normal _ _ h5)
  obtain ⟨-, -, -, s6⟩ := mul_normal _ _ (mulSafe_normal _ _ h6)
  obtain ⟨-, -, -, s7⟩ := div_normal Q _ (divSafe_normal _ _ h7)
  have hkk := signRat_mul_self (fin s (2 ^ t) * r)
  have hrr := signRat_mul_self r
  have hks := signRat_mul_self (fin s (2 ^ t))
  unfold toRat
  rw [s7, s6, s5, s4, s3, s2, absRat_eq, absRat_eq, absRat_eq]
  have hk : magnitude (fin s (2 ^ t)) = 2 ^ t := rfl
  rw [hk]
  have m4u : 2 ^ t * 2 ^ t
        * magnitude (Q / (C * (fin s (2 ^ t) * r) * (fin s (2 ^ t) * r)))
      = unitScale * unitScale * magnitude (Q / (C * r * r)) := by
    rw [pow_unitScale] at m4
    exact m4
  have hU := unitScale_cast_pos
  have m4' : (2 : ℚ) ^ t * 2 ^ t
        * (magnitude (Q / (C * (fin s (2 ^ t) * r) * (fin s (2 ^ t) * r))) : ℚ)
      = (unitScale : ℚ) * (unitScale : ℚ) * (magnitude (Q / (C * r * r)) : ℚ) := by
    exact_mod_cast m4u
  generalize (magnitude (Q / (C * (fin s (2 ^ t) * r) * (fin s (2 ^ t) * r))) : ℚ) = M'
    at m4' ⊢
  generalize (magnitude (Q / (C * r * r)) : ℚ) = M at m4' ⊢
  generalize signRat (fin s (2 ^ t) * r) = skr at hkk ⊢
  generalize signRat (fin s (2 ^ t)) = sk at hks ⊢
  generalize signRat Q = sQ
  generalize signRat C = sC
  generalize signRat r = sr at hrr ⊢
  rw [Nat.cast_pow, Nat.cast_ofNat]
  have hP : (0 : ℚ) < 2 ^ t := by positivity
  generalize (unitScale : ℚ) = U at m4' hU ⊢
  generalize (2 : ℚ) ^ t = P at m4' hP ⊢
  have e : M' = U * U * M / (P * P) := by
    rw [eq_div_iff (mul_pos hP hP).ne']
    linarith
  have e1 : sQ * (sC * skr * skr) = sQ * sC := by rw [mul_assoc sC, hkk, mul_one]
  have e2 : sQ * (sC * sr * sr) = sQ * sC := by rw [mul_assoc sC, hrr, mul_one]
  have e3 : (sk * (P / U)) ^ 2 = (P / U) ^ 2 := by rw [mul_pow, pow_two sk, hks, one_mul]
  rw [e, e1, e2, e3]
  field_simp
  ring

/-- The value of `N / (P * (k * r))` for `k` a power of two. -/
theorem exact_denominator (s : Bool) (t : Nat) (N r P : Double) (hr : isBinary64 r = true)
    (hrn : isNormal r = true) (h1 : mulSafe (fin s (2 ^ t)) r = true)
    (h2 : mulSafe P r = true) (h3 : divSafe N (P * r) = true)
    (h4 : mulSafe P (fin s (2 ^ t) * r) = true)
    (h5 : divSafe N (P * (fin s (2 ^ t) * r)) = true) :
    toRat (N / (P * (fin s (2 ^ t) * r)))
      = toRat (N / (P * r)) / toRat (fin s (2 ^ t)) := by
  have m1 := mul_pow_two s t r hr hrn h1
  have m2 := mul_scaled P P r (fin s (2 ^ t) * r) 0 0 t 1074 rfl m1 h2 h4
  have m3 := div_scaled N N (P * r) (P * (fin s (2 ^ t) * r))
    0 0 (0 + t) (0 + 1074) rfl m2 h3 h5
  rw [Nat.zero_add, Nat.zero_add, Nat.zero_add, Nat.zero_add] at m3
  obtain ⟨-, -, -, s1⟩ := mul_normal _ r (mulSafe_normal _ _ h1)
  obtain ⟨-, -, -, s2⟩ := mul_normal P r (mulSafe_normal _ _ h2)
  obtain ⟨-, -, -, s3⟩ := div_normal N (P * r) (divSafe_normal _ _ h3)
  obtain ⟨-, -, -, s4⟩ := mul_normal P _ (mulSafe_normal _ _ h4)
  obtain ⟨-, -, -, s5⟩ := div_normal N _ (divSafe_normal _ _ h5)
  have hki := signRat_inv (fin s (2 ^ t))
  unfold toRat
  rw [s5, s4, s3, s2, s1, absRat_eq, absRat_eq, absRat_eq]
  have hk : magnitude (fin s (2 ^ t)) = 2 ^ t := rfl
  rw [hk]
  have m3u : 2 ^ t * magnitude (N / (P * (fin s (2 ^ t) * r)))
      = unitScale * magnitude (N / (P * r)) := m3
  have hU := unitScale_cast_pos
  have m3' : (2 : ℚ) ^ t * (magnitude (N / (P * (fin s (2 ^ t) * r))) : ℚ)
      = (unitScale : ℚ) * (magnitude (N / (P * r)) : ℚ) := by exact_mod_cast m3u
  generalize (magnitude (N / (P * (fin s (2 ^ t) * r))) : ℚ) = M' at m3' ⊢
  generalize (magnitude (N / (P * r)) : ℚ) = M at m3' ⊢
  generalize signRat (fin s (2 ^ t)) = sk at hki ⊢
  generalize signRat N = sN
  generalize signRat P = sP
  generalize signRat r = sr
  rw [Nat.cast_pow, Nat.cast_ofNat]
  have hP : (0 : ℚ) < 2 ^ t := by positivity
  generalize (unitScale : ℚ) = U at m3' hU ⊢
  generalize (2 : ℚ) ^ t = P' at m3' hP ⊢
  have e : M' = U * M / P' := by
    rw [eq_div_iff hP.ne']
    linarith
  have e1 : sN * (sP * sr) * (M / U) / (sk * (P' / U))
      = sN * (sP * (sk * sr)) * (M / U / (P' / U)) := by
    rw [div_eq_mul_inv, mul_inv, hki, div_eq_mul_inv (M / U)]
    ring
  rw [e, e1]
  field_simp
  ring

end Double

theorem Electric_Field.electric_safeRun_inv (Q r : Double) (h : Electric_Field.safeRun Q r = true) :
    Double.mulSafe (4 * M_PI * EPSILON_0) r = true
      ∧ Double.mulSafe (4 * M_PI * EPSILON_0 * r) r = true
      ∧ Double.divSafe Q (4 * M_PI * EPSILON_0 * r * r) = true := by
  unfold Electric_Field.safeRun at h
  rw [Bool.and_eq_true, Bool.and_eq_true] at h
  exact ⟨h.1.1, h.1.2, h.2⟩

theorem Magnetic_Field.magnetic_safeRun_inv (I r : Double) (h : Magnetic_Field.safeRun I r = true) :
    Double.mulSafe (2 * M_PI) r = true
      ∧ Double.divSafe (MU_0 * I) (2 * M_PI * r) = true := by
  unfold Magnetic_Field.safeRun at h
  rw [Bool.and_eq_true] at h
  exact h

/-! ## Properties of the frame, of assignment, of the magnitude and of scaling -/

/-- C11: for every sample and every pair of arguments, `calculateElectricField`
and `calculateMagneticField` leave the three components, and therefore the
value of `calculateMagnitude`, as they were before the call. -/
theorem compute_frame (e : Electric_Field) (m : Magnetic_Field) (Q r I : Double) :
    ((e.calculateElectricField Q r).1.value0 = e.value0
      ∧ (e.calculateElectricField Q r).1.value1 = e.value1
      ∧ (e.calculateElectricField Q r).1.value2 = e.value2
      ∧ (e.calculateElectricField Q r).1.calculateMagnitude = e.calculateMagnitude)
    ∧ ((m.calculateMagneticField I r).1.value0 = m.value0
      ∧ (m.calculateMagneticField I r).1.value1 = m.value1
      ∧ (m.calculateMagneticField I r).1.value2 = m.value2
      ∧ (m.calculateMagneticField I r).1.calculateMagnitude = m.calculateMagnitude) := by
  refine ⟨⟨rfl, rfl, rfl, ?_⟩, ⟨rfl, rfl, rfl, ?_⟩⟩
  · rw [Electric_Field.calculateElectricField_toField]
  · rw [Magnetic_Field.calculateMagneticField_toField]

/-- C12: after the base-class assignment `a = b` (objects given by address in
memory) the components of `a` are those of `b`, so the two magnitudes agree;
`b`, and every object other than `a`, is unchanged; the self-assignment
`a = a` leaves memory unchanged; assigning a second time changes nothing; and
the call returns the reference `*this`. -/
theorem operator_assign_copies (st : Store) (a b : Nat) :
    (Field.operator_assign st a b).1 a = st b
    ∧ ((Field.operator_assign st a b).1 a).calculateMagnitude
        = ((Field.operator_assign st a b).1 b).calculateMagnitude
    ∧ (Field.operator_assign st a b).1 b = st b
    ∧ (∀ c : Nat, (Field.operator_assign st a b).1 c = if c = a then st b else st c)
    ∧ (Field.operator_assign st a a).1 = st
    ∧ (Field.operator_assign (Field.operator_assign st a b).1 a b).1
        = (Field.operator_assign st a b).1
    ∧ (Field.operator_assign st a b).2 = a := by
  by_cases h : a = b
  · subst h
    simp only [Field.operator_assign, ne_eq, not_true_eq_false, if_false, and_self, true_and,
      and_true]
    intro c
    split_ifs with hc
    · rw [hc]
    · rfl
  · have e := Field.operator_assign_ne st a b h
    have e2 := Field.operator_assign_ne (Function.update st a (st b)) a b h
    have hba : b ≠ a := Ne.symm h
    refine ⟨?_, ?_, ?_, ?_, ?_, ?_, ?_⟩
    · rw [e]; simp
    · rw [e]; simp [hba]
    · rw [e]; simp [hba]
    · intro c; rw [e]; simp [Function.update_apply]
    · simp [Field.operator_assign]
    · rw [e, e2]; simp [hba]
    · simp [Field.operator_assign, h]

/-- C13, as stated, fails: for `a = (1, 1, 0)` and `b = (3, 3, 0)` the
magnitude of `a + b` is not `<=` the sum of the magnitudes
(`5.656854249492381` against `5.65685424949238`); the field
`(1e-200, 0, 0)` has magnitude `0` although its first component is not a
zero; and for `a = b = (1.4e-162, 0, 0)`, whose squares underflow, both
magnitudes are `0` while the magnitude of `a + b` is positive, so that the
inequality fails there by more than any rounding error. -/
theorem magnitude_triangle_fails :
    Double.le
        ((Electric_Field.new 1.0 1.0 0.0).operator_plus
          (Electric_Field.new 3.0 3.0 0.0)).calculateMagnitude
        ((Electric_Field.new 1.0 1.0 0.0).calculateMagnitude
          + (Electric_Field.new 3.0 3.0 0.0).calculateMagnitude) = false
    ∧ (Field.new 1e-200 0.0 0.0).calculateMagnitude = Double.fin false 0
    ∧ (1e-200 : Double) ≠ Double.fin false 0
    ∧ (1e-200 : Double) ≠ Double.fin true 0
    ∧ (Electric_Field.new 1.4e-162 0.0 0.0).calculateMagnitude = Double.fin false 0
    ∧ Double.lt (Double.fin false 0)
        ((Electric_Field.new 1.4e-162 0.0 0.0).operator_plus
          (Electric_Field.new 1.4e-162 0.0 0.0)).calculateMagnitude = true
    ∧ Double.leWithin 49
        ((Electric_Field.new 1.4e-162 0.0 0.0).operator_plus
          (Electric_Field.new 1.4e-162 0.0 0.0)).calculateMagnitude
        ((Electric_Field.new 1.4e-162 0.0 0.0).calculateMagnitude
          + (Electric_Field.new 1.4e-162 0.0 0.0).calculateMagnitude) = false := by
  refine ⟨?_, ?_, ?_, ?_, ?_, ?_, ?_⟩ <;> decide!

/-- C13, amended: `calculateMagnitude` is never negative; it is `0` exactly
when the three squares `x * x`, `y * y`, `z * z` are zero, which is the case
when the three components are zeros of either sign; and for samples `a`, `b`
of the same kind, when every component of `a`, of `b` and of `a + b` is a
zero or has a magnitude between `2^-511` and `2^506` (so that no square
underflows or overflows), the triangle inequality holds up to the rounding
errors of the operations of both sides:
`calculateMagnitude(a + b) <= (calculateMagnitude(a) + calculateMagnitude(b)) * (1 + 2^-49)`,
the right-hand product taken exactly. -/
theorem magnitude_properties :
    (∀ f : Field, Double.lt f.calculateMagnitude 0.0 = false)
    ∧ (∀ f : Field,
        f.calculateMagnitude = Double.fin false 0
          ↔ f.value0 * f.value0 = Double.fin false 0
            ∧ f.value1 * f.value1 = Double.fin false 0
            ∧ f.value2 * f.value2 = Double.fin false 0)
    ∧ (∀ s0 s1 s2 : Bool,
        (Field.new (Double.fin s0 0) (Double.fin s1 0)
          (Double.fin s2 0)).calculateMagnitude = Double.fin false 0)
    ∧ (∀ a b : Electric_Field, a.toField.inRange = true → b.toField.inRange = true →
        (a.operator_plus b).toField.inRange = true →
        Double.leWithin 49 (a.operator_plus b).calculateMagnitude
          (a.calculateMagnitude + b.calculateMagnitude) = true)
    ∧ (∀ a b : Magnetic_Field, a.toField.inRange = true → b.toField.inRange = true →
        (a.operator_plus b).toField.inRange = true →
        Double.leWithin 49 (a.operator_plus b).calculateMagnitude
          (a.calculateMagnitude + b.calculateMagnitude) = true) := by
  refine ⟨fun f => ?_, Field.calculateMagnitude_eq_zero_iff, fun s0 s1 s2 => ?_,
    fun a b ha hb hc => ?_, fun a b ha hb hc => ?_⟩
  · rw [Double.literal_zero]
    exact Double.lt_zero_of_signbit _ (Field.calculateMagnitude_signbit f)
  · rw [Field.calculateMagnitude_eq_zero_iff]
    simp only [Field.new, Double.mul_fin_zero, Bool.xor_self, and_self]
  · rw [Electric_Field.electric_plus_toField] at hc ⊢
    exact Field.triangle_slack _ _ ha hb hc
  · rw [Magnetic_Field.magnetic_plus_toField] at hc ⊢
    exact Field.triangle_slack _ _ ha hb hc

/-- Witness for C13, amended: `a = (1, 1, 0)` and `b = (3, 3, 0)`, for which
the inequality without slack fails, are in range together with `a + b`, and
the magnitude of `a + b` is at most `(1 + 2^-49)` times the sum of the
magnitudes. -/
theorem magnitude_properties_witness :
    (Electric_Field.new 1.0 1.0 0.0).toField.inRange = true
    ∧ (Electric_Field.new 3.0 3.0 0.0).toField.inRange = true
    ∧ ((Electric_Field.new 1.0 1.0 0.0).operator_plus
        (Electric_Field.new 3.0 3.0 0.0)).toField.inRange = true
    ∧ Double.leWithin 49
        ((Electric_Field.new 1.0 1.0 0.0).operator_plus
          (Electric_Field.new 3.0 3.0 0.0)).calculateMagnitude
        ((Electric_Field.new 1.0 1.0 0.0).calculateMagnitude
          + (Electric_Field.new 3.0 3.0 0.0).calculateMagnitude) = true :=
  ⟨by decide!, by decide!, by decide!,
    magnitude_properties.2.2.2.1 (Electric_Field.new 1.0 1.0 0.0)
      (Electric_Field.new 3.0 3.0 0.0) (by decide!) (by decide!) (by decide!)⟩

/-- C14, as stated, fails: for `Q = 1e-6`, `r = 0.05`, `I = 10.0`, `r = 0.02`
of `main` and `k = 23`, the scalar stored for `k * Q` is not `k` times, the
scalar stored for `k * r` is not `1 / (k * k)` times (nor the quotient by
`k * k` of), and the magnetic scalar stored for `k * r` is not `1 / k` times
(nor the quotient by `k` of) the scalar stored for the unscaled arguments.
For `Q = 1e-300`, `r = 1e-100` and `k = 1e-100` the denominator of the scaled
call underflows to zero: the scaled call stores `+Inf`, the unscaled one a
normal number. -/
theorem scaling_fails :
    (E1.calculateElectricField (23.0 * 1e-6) 0.05).1.E_calculated
        ≠ 23.0 * (E1.calculateElectricField 1e-6 0.05).1.E_calculated
    ∧ (E1.calculateElectricField 1e-6 (23.0 * 0.05)).1.E_calculated
        ≠ 1.0 / (23.0 * 23.0) * (E1.calculateElectricField 1e-6 0.05).1.E_calculated
    ∧ (E1.calculateElectricField 1e-6 (23.0 * 0.05)).1.E_calculated
        ≠ (E1.calculateElectricField 1e-6 0.05).1.E_calculated / (23.0 * 23.0)
    ∧ (M1.calculateMagneticField 10.0 (23.0 * 0.02)).1.B_calculated
        ≠ 1.0 / 23.0 * (M1.calculateMagneticField 10.0 0.02).1.B_calculated
    ∧ (M1.calculateMagneticField 10.0 (23.0 * 0.02)).1.B_calculated
        ≠ (M1.calculateMagneticField 10.0 0.02).1.B_calculated / 23.0
    ∧ (E1.calculateElectricField 1e-300 (1e-100 * 1e-100)).1.E_calculated
        = Double.inf false
    ∧ Double.isNormal (E1.calculateElectricField 1e-300 1e-100).1.E_calculated = true := by
  refine ⟨?_, ?_, ?_, ?_, ?_, ?_, ?_⟩ <;> decide!

/-- C14, amended.  The case `k = -1` holds exactly, for all arguments:
negating `Q` negates the stored electric strength, negating `r` leaves it
unchanged, and negating `r` (or `I`) negates the stored magnetic strength.
For every `k`, when the product `k * Q` (or `k * r`) and the operations of
the two calls neither underflow nor overflow, the laws hold up to rounding:
the scalar stored for `k * Q` is `k` times the scalar stored for `Q` within
the relative error `2^-51`, the scalar stored for `k * r` is `1 / k^2` times
the scalar stored for `r` within `2^-49`, and the magnetic scalar stored for
`k * r` is `1 / k` times the scalar stored for `r` within `2^-50`.  When
moreover `k` is a power of two (of either sign) and the scaled argument is a
normal binary64 value, the three laws hold exactly. -/
theorem scaling_laws :
    (∀ (e : Electric_Field) (m : Magnetic_Field) (Q I r : Double),
      (e.calculateElectricField (-Q) r).1.E_calculated
          = -(e.calculateElectricField Q r).1.E_calculated
      ∧ (e.calculateElectricField Q (-r)).1.E_calculated
          = (e.calculateElectricField Q r).1.E_calculated
      ∧ (m.calculateMagneticField I (-r)).1.B_calculated
          = -(m.calculateMagneticField I r).1.B_calculated
      ∧ (m.calculateMagneticField (-I) r).1.B_calculated
          = -(m.calculateMagneticField I r).1.B_calculated)
    ∧ (∀ (e : Electric_Field) (k Q r : Double),
        Double.mulSafe k Q = true → Electric_Field.safeRun Q r = true →
        Electric_Field.safeRun (k * Q) r = true →
        Double.near 51
          (Double.toRat (e.calculateElectricField (k * Q) r).1.E_calculated)
          (Double.toRat k * Double.toRat (e.calculateElectricField Q r).1.E_calculated))
    ∧ (∀ (e : Electric_Field) (k Q r : Double),
        Double.mulSafe k r = true → Electric_Field.safeRun Q r = true →
        Electric_Field.safeRun Q (k * r) = true →
        Double.near 49
          (Double.toRat (e.calculateElectricField Q (k * r)).1.E_calculated)
          (Double.toRat (e.calculateElectricField Q r).1.E_calculated
            / Double.toRat k ^ 2))
    ∧ (∀ (m : Magnetic_Field) (k I r : Double),
        Double.mulSafe k r = true → Magnetic_Field.safeRun I r = true →
        Magnetic_Field.safeRun I (k * r) = true →
        Double.near 50
          (Double.toRat (m.calculateMagneticField I (k * r)).1.B_calculated)
          (Double.toRat (m.calculateMagneticField I r).1.B_calculated / Double.toRat k))
    ∧ (∀ (e : Electric_Field) (s : Bool) (t : Nat) (Q r : Double),
        Double.isBinary64 Q = true → Double.isNormal Q = true →
        Double.mulSafe (Double.fin s (2 ^ t)) Q = true →
        Electric_Field.safeRun Q r = true →
        Electric_Field.safeRun (Double.fin s (2 ^ t) * Q) r = true →
        Double.toRat (e.calculateElectricField (Double.fin s (2 ^ t) * Q) r).1.E_calculated
          = Double.toRat (Double.fin s (2 ^ t))
            * Double.toRat (e.calculateElectricField Q r).1.E_calculated)
    ∧ (∀ (e : Electric_Field) (s : Bool) (t : Nat) (Q r : Double),
        Double.isBinary64 r = true → Double.isNormal r = true →
        Double.mulSafe (Double.fin s (2 ^ t)) r = true →
        Electric_Field.safeRun Q r = true →
        Electric_Field.safeRun Q (Double.fin s (2 ^ t) * r) = true →
        Double.toRat (e.calculateElectricField Q (Double.fin s (2 ^ t) * r)).1.E_calculated
          = Double.toRat (e.calculateElectricField Q r).1.E_calculated
            / Double.toRat (Double.fin s (2 ^ t)) ^ 2)
    ∧ (∀ (m : Magnetic_Field) (s : Bool) (t : Nat) (I r : Double),
        Double.isBinary64 r = true → Double.isNormal r = true →
        Double.mulSafe (Double.fin s (2 ^ t)) r = true →
        Magnetic_Field.safeRun I r = true →
        Magnetic_Field.safeRun I (Double.fin s (2 ^ t) * r) = true →
        Double.toRat (m.calculateMagneticField I (Double.fin s (2 ^ t) * r)).1.B_calculated
          = Double.toRat (m.calculateMagneticField I r).1.B_calculated
            / Double.toRat (Double.fin s (2 ^ t))) := by
  refine ⟨fun e m Q I r => ⟨?_, ?_, ?_, ?_⟩, fun e k Q r h1 h2 h3 => ?_,
    fun e k Q r h1 h2 h3 => ?_, fun m k I r h1 h2 h3 => ?_,
    fun e s t Q r hb hn h1 h2 h3 => ?_, fun e s t Q r hb hn h1 h2 h3 => ?_,
    fun m s t I r hb hn h1 h2 h3 => ?_⟩
  · rw [Electric_Field.calculateElectricField_E, Electric_Field.calculateElectricField_E,
      Double.neg_div_eq]
  · rw [Electric_Field.calculateElectricField_E, Electric_Field.calculateElectricField_E,
      Double.mul_neg_eq, Double.mul_neg_eq, Double.neg_mul_eq, Double.neg_neg_eq]
  · rw [Magnetic_Field.calculateMagneticField_B, Magnetic_Field.calculateMagneticField_B,
      Double.mul_neg_eq, Double.div_neg_eq]
  · rw [Magnetic_Field.calculateMagneticField_B, Magnetic_Field.calculateMagneticField_B,
      Double.mul_neg_eq, Double.neg_div_eq]
  · obtain ⟨-, -, a3⟩ := Electric_Field.electric_safeRun_inv _ _ h2
    obtain ⟨-, -, b3⟩ := Electric_Field.electric_safeRun_inv _ _ h3
    rw [Electric_Field.calculateElectricField_E, Electric_Field.calculateElectricField_E]
    exact Double.div_scale_numerator k Q _ (Double.mulSafe_normal _ _ h1)
      (Double.divSafe_normal _ _ a3) (Double.divSafe_normal _ _ b3)
  · obtain ⟨a1, a2, a3⟩ := Electric_Field.electric_safeRun_inv _ _ h2
    obtain ⟨b1, b2, b3⟩ := Electric_Field.electric_safeRun_inv _ _ h3
    rw [Electric_Field.calculateElectricField_E, Electric_Field.calculateElectricField_E]
    exact Double.div_scale_square k Q r _ (Double.mulSafe_normal _ _ h1)
      (Double.mulSafe_normal _ _ a1) (Double.mulSafe_normal _ _ a2)
      (Double.divSafe_normal _ _ a3) (Double.mulSafe_normal _ _ b1)
      (Double.mulSafe_normal _ _ b2) (Double.divSafe_normal _ _ b3)
  · obtain ⟨a1, a2⟩ := Magnetic_Field.magnetic_safeRun_inv _ _ h2
    obtain ⟨b1, b2⟩ := Magnetic_Field.magnetic_safeRun_inv _ _ h3
    rw [Magnetic_Field.calculateMagneticField_B, Magnetic_Field.calculateMagneticField_B]
    exact Double.div_scale_denominator k _ r _ (Double.mulSafe_normal _ _ h1)
      (Double.mulSafe_normal _ _ a1) (Double.divSafe_normal _ _ a2)
      (Double.mulSafe_normal _ _ b1) (Double.divSafe_normal _ _ b2)
  · obtain ⟨-, -, a3⟩ := Electric_Field.electric_safeRun_inv _ _ h2
    obtain ⟨-, -, b3⟩ := Electric_Field.electric_safeRun_inv _ _ h3
    rw [Electric_Field.calculateElectricField_E, Electric_Field.calculateElectricField_E]
    exact Double.exact_numerator s t Q _ hb hn h1 a3 b3
  · obtain ⟨a1, a2, a3⟩ := Electric_Field.electric_safeRun_inv _ _ h2
    obtain ⟨b1, b2, b3⟩ := Electric_Field.electric_safeRun_inv _ _ h3
    rw [Electric_Field.calculateElectricField_E, Electric_Field.calculateElectricField_E]
    exact Double.exact_square s t Q r _ hb hn h1 a1 a2 a3 b1 b2 b3
  · obtain ⟨a1, a2⟩ := Magnetic_Field.magnetic_safeRun_inv _ _ h2
    obtain ⟨b1, b2⟩ := Magnetic_Field.magnetic_safeRun_inv _ _ h3
    rw [Magnetic_Field.calculateMagneticField_B, Magnetic_Field.calculateMagneticField_B]
    exact Double.exact_denominator s t _ r _ hb hn h1 a1 a2 b1 b2

/-- Witness for C14, amended: at the arguments of `main`, the factor `k = 23`
satisfies the conditions of the three laws up to rounding, and the factor
`k = 2` (two units of `2^1074`) those of the three exact laws. -/
theorem scaling_laws_witness :
    (Double.mulSafe 23.0 1e-6 = true ∧ Electric_Field.safeRun 1e-6 0.05 = true
      ∧ Electric_Field.safeRun (23.0 * 1e-6) 0.05 = true
      ∧ Double.near 51
          (Double.toRat (E1.calculateElectricField (23.0 * 1e-6) 0.05).1.E_calculated)
          (Double.toRat 23.0
            * Double.toRat (E1.calculateElectricField 1e-6 0.05).1.E_calculated))
    ∧ (Double.mulSafe 23.0 0.05 = true ∧ Electric_Field.safeRun 1e-6 (23.0 * 0.05) = true
      ∧ Double.near 49
          (Double.toRat (E1.calculateElectricField 1e-6 (23.0 * 0.05)).1.E_calculated)
          (Double.toRat (E1.calculateElectricField 1e-6 0.05).1.E_calculated
            / Double.toRat 23.0 ^ 2))
    ∧ (Double.mulSafe 23.0 0.02 = true ∧ Magnetic_Field.safeRun 10.0 0.02 = true
      ∧ Magnetic_Field.safeRun 10.0 (23.0 * 0.02) = true
      ∧ Double.near 50
          (Double.toRat (M1.calculateMagneticField 10.0 (23.0 * 0.02)).1.B_calculated)
          (Double.toRat (M1.calculateMagneticField 10.0 0.02).1.B_calculated
            / Double.toRat 23.0))
    ∧ ((2.0 : Double) = Double.fin false (2 ^ 1075)
      ∧ Double.isBinary64 1e-6 = true ∧ Double.isNormal 1e-6 = true
      ∧ Double.mulSafe (Double.fin false (2 ^ 1075)) 1e-6 = true
      ∧ Electric_Field.safeRun (Double.fin false (2 ^ 1075) * 1e-6) 0.05 = true
      ∧ Double.toRat
          (E1.calculateElectricField (Double.fin false (2 ^ 1075) * 1e-6) 0.05).1.E_calculated
        = Double.toRat (Double.fin false (2 ^ 1075))
          * Double.toRat (E1.calculateElectricField 1e-6 0.05).1.E_calculated)
    ∧ (Double.isBinary64 0.05 = true ∧ Double.isNormal 0.05 = true
      ∧ Double.mulSafe (Double.fin false (2 ^ 1075)) 0.05 = true
      ∧ Electric_Field.safeRun 1e-6 (Double.fin false (2 ^ 1075) * 0.05) = true
      ∧ Double.toRat
          (E1.calculateElectricField 1e-6 (Double.fin false (2 ^ 1075) * 0.05)).1.E_calculated
        = Double.toRat (E1.calculateElectricField 1e-6 0.05).1.E_calculated
          / Double.toRat (Double.fin false (2 ^ 1075)) ^ 2)
    ∧ (Double.isBinary64 0.02 = true ∧ Double.isNormal 0.02 = true
      ∧ Double.mulSafe (Double.fin false (2 ^ 1075)) 0.02 = true
      ∧ Magnetic_Field.safeRun 10.0 (Double.fin false (2 ^ 1075) * 0.02) = true
      ∧ Double.toRat
          (M1.calculateMagneticField 10.0 (Double.fin false (2 ^ 1075) * 0.02)).1.B_calculated
        = Double.toRat (M1.calculateMagneticField 10.0 0.02).1.B_calculated
          / Double.toRat (Double.fin false (2 ^ 1075))) :=
  ⟨⟨by decide!, by decide!, by decide!,
      scaling_laws.2.1 E1 23.0 1e-6 0.05 (by decide!) (by decide!) (by decide!)⟩,
    ⟨by decide!, by decide!,
      scaling_laws.2.2.1 E1 23.0 1e-6 0.05 (by decide!) (by decide!) (by decide!)⟩,
    ⟨by decide!, by decide!, by decide!,
      scaling_laws.2.2.2.1 M1 23.0 10.0 0.02 (by decide!) (by decide!) (by decide!)⟩,
    ⟨by decide!, by decide!, by decide!, by decide!, by decide!,
      scaling_laws.2.2.2.2.1 E1 false 1075 1e-6 0.05 (by decide!) (by decide!) (by decide!)
        (by decide!) (by decide!)⟩,
    ⟨by decide!, by decide!, by decide!, by decide!,
      scaling_laws.2.2.2.2.2.1 E1 false 1075 1e-6 0.05 (by decide!) (by decide!) (by decide!)
        (by decide!) (by decide!)⟩,
    ⟨by decide!, by decide!, by decide!, by decide!,
      scaling_laws.2.2.2.2.2.2 M1 false 1075 10.0 0.02 (by decide!) (by decide!) (by decide!)
        (by decide!) (by decide!)⟩⟩

end FieldModel
